import Mathlib

/-
Verification of the Parallel Verification & Recovery Pipeline of the
BrickMove1 repository.  Python text values are modelled as `List Char`
(one Lean `Char` per Python character); line splitting follows the
newline character, `str.strip()` is modelled by trimming whitespace
characters at both ends, and filesystem reads are modelled as
`Option` values (a `none` read models an unreadable file).  Filesystem
writes are modelled as always succeeding.
-/

namespace BrickMove

/-- Machine text: one `Char` per Python character. -/
abbrev Str := List Char

/-- Whitespace characters recognised by `str.strip()` / `str.lstrip()`. -/
def isWS (c : Char) : Bool :=
  c = ' ' || c = '\t' || c = '\n' || c = '\r' || c = '\x0b' || c = '\x0c'

/-- `str.lstrip()`. -/
def trimL (l : Str) : Str := l.dropWhile isWS

/-- `str.rstrip()`. -/
def trimR (l : Str) : Str := (trimL l.reverse).reverse

/-- `str.strip()`. -/
def pyStrip (l : Str) : Str := trimL (trimR l)

/-- Split on every newline character, keeping all fields (like
`str.split("\n")`). -/
def splitOnNl : Str → List Str
  | [] => [[]]
  | c :: cs =>
    let r := splitOnNl cs
    if c = '\n' then [] :: r else (c :: r.headI) :: r.tail

/-- `"\n".join(lines)`. -/
def joinNl : List Str → Str
  | [] => []
  | [l] => l
  | l :: l2 :: ls => l ++ '\n' :: joinNl (l2 :: ls)

/-- `str.splitlines()` restricted to newline separators: like
`splitOnNl` but a trailing newline does not produce a final empty
line, and the empty string has no lines. -/
def pySplitlines (s : Str) : List Str :=
  if s = [] then []
  else
    let r := splitOnNl s
    if r.getLast? = some [] then r.dropLast else r

theorem splitOnNl_ne_nil (l : Str) : splitOnNl l ≠ [] := by
  cases l with
  | nil => simp [splitOnNl]
  | cons c cs =>
    simp only [splitOnNl]
    split <;> simp

theorem joinNl_cons_of_ne_nil (l : Str) {ls : List Str} (h : ls ≠ []) :
    joinNl (l :: ls) = l ++ '\n' :: joinNl ls := by
  cases ls with
  | nil => exact absurd rfl h
  | cons l2 ls => rfl

theorem joinNl_splitOnNl (l : Str) : joinNl (splitOnNl l) = l := by
  induction l with
  | nil => simp [splitOnNl, joinNl]
  | cons c cs ih =>
    obtain ⟨h, t, hr⟩ : ∃ h t, splitOnNl cs = h :: t := by
      cases hcs : splitOnNl cs with
      | nil => exact absurd hcs (splitOnNl_ne_nil cs)
      | cons h t => exact ⟨h, t, rfl⟩
    by_cases hc : c = '\n'
    · subst hc
      have hs : splitOnNl ('\n' :: cs) = [] :: splitOnNl cs := by
        simp [splitOnNl]
      rw [hs, joinNl_cons_of_ne_nil _ (splitOnNl_ne_nil cs), ih]
      rfl
    · simp only [splitOnNl, if_neg hc, hr, List.headI, List.tail]
      cases t with
      | nil =>
        simp only [joinNl]
        have : joinNl [h] = cs := by rw [← hr, ih]
        simpa [joinNl] using this
      | cons t1 ts =>
        rw [joinNl_cons_of_ne_nil _ (by simp)]
        have : joinNl (h :: t1 :: ts) = cs := by rw [← hr, ih]
        rw [joinNl_cons_of_ne_nil _ (by simp)] at this
        simp [← this]

theorem splitOnNl_append_nl (x y : Str) :
    splitOnNl (x ++ '\n' :: y) = splitOnNl x ++ splitOnNl y := by
  induction x with
  | nil => simp [splitOnNl]
  | cons c cs ih =>
    obtain ⟨h, t, hr⟩ : ∃ h t, splitOnNl cs = h :: t := by
      cases hcs : splitOnNl cs with
      | nil => exact absurd hcs (splitOnNl_ne_nil cs)
      | cons h t => exact ⟨h, t, rfl⟩
    by_cases hc : c = '\n'
    · subst hc
      simp [splitOnNl, ih]
    · simp [splitOnNl, if_neg hc, ih, hr]

/-- Splitting a newline-free string yields that single line. -/
theorem splitOnNl_of_not_mem (x : Str) (h : '\n' ∉ x) : splitOnNl x = [x] := by
  induction x with
  | nil => rfl
  | cons c cs ih =>
    have hc : c ≠ '\n' := fun hh => h (hh ▸ List.mem_cons_self c cs)
    have hcs : '\n' ∉ cs := fun hh => h (List.mem_cons_of_mem c hh)
    simp [splitOnNl, if_neg hc, ih hcs]

theorem not_nl_mem_of_mem_splitOnNl {x : Str} {l : Str}
    (h : x ∈ splitOnNl l) : '\n' ∉ x := by
  induction l generalizing x with
  | nil =>
    simp only [splitOnNl, List.mem_singleton] at h
    subst h; simp
  | cons c cs ih =>
    obtain ⟨hd, tl, hr⟩ : ∃ hd tl, splitOnNl cs = hd :: tl := by
      cases hcs : splitOnNl cs with
      | nil => exact absurd hcs (splitOnNl_ne_nil cs)
      | cons hd tl => exact ⟨hd, tl, rfl⟩
    by_cases hc : c = '\n'
    · subst hc
      have hs : splitOnNl ('\n' :: cs) = [] :: splitOnNl cs := by
        simp [splitOnNl]
      rw [hs] at h
      rcases List.mem_cons.mp h with h1 | h1
      · subst h1; simp
      · exact ih h1
    · simp only [splitOnNl, if_neg hc, hr, List.headI, List.tail,
        List.mem_cons] at h
      rcases h with h | h
      · subst h
        intro hmem
        rcases List.mem_cons.mp hmem with h1 | h1
        · exact hc h1.symm
        · exact ih (hr ▸ List.mem_cons_self hd tl) h1
      · exact ih (hr ▸ List.mem_cons_of_mem hd h)

/-- Splitting a join of newline-free lines gives back the lines. -/
theorem splitOnNl_joinNl {ls : List Str} (hne : ls ≠ [])
    (hfree : ∀ x ∈ ls, '\n' ∉ x) : splitOnNl (joinNl ls) = ls := by
  induction ls with
  | nil => exact absurd rfl hne
  | cons l ls ih =>
    cases ls with
    | nil =>
      simp only [joinNl]
      exact splitOnNl_of_not_mem l (hfree l (List.mem_cons_self l []))
    | cons l2 ls2 =>
      rw [joinNl_cons_of_ne_nil _ (by simp), splitOnNl_append_nl,
        splitOnNl_of_not_mem l (hfree l (List.mem_cons_self _ _)),
        ih (by simp) (fun x hx => hfree x (List.mem_cons_of_mem l hx))]
      rfl

theorem trimL_append (a b : Str) :
    trimL (a ++ b) = if trimL a = [] then trimL b else trimL a ++ b := by
  induction a with
  | nil => simp [trimL]
  | cons c a' ih =>
    by_cases hc : isWS c
    · simpa [trimL, List.dropWhile_cons, hc] using ih
    · simp [trimL, List.dropWhile_cons, hc]

theorem trimL_cons_of_ws {c : Char} (h : isWS c) (x : Str) :
    trimL (c :: x) = trimL x := by
  simp [trimL, List.dropWhile_cons, h]

theorem trimL_cons_of_not_ws {c : Char} (h : ¬ isWS c) (x : Str) :
    trimL (c :: x) = c :: x := by
  simp [trimL, List.dropWhile_cons, h]

theorem trimL_eq_nil_iff (l : Str) : trimL l = [] ↔ ∀ c ∈ l, isWS c := by
  simp [trimL, List.dropWhile_eq_nil_iff]

theorem trimR_eq_nil_iff (l : Str) : trimR l = [] ↔ ∀ c ∈ l, isWS c := by
  constructor
  · intro h c hc
    have : trimL l.reverse = [] := by
      have := congrArg List.reverse h
      simpa [trimR] using this
    exact (trimL_eq_nil_iff _).mp this c (List.mem_reverse.mpr hc)
  · intro h
    have : trimL l.reverse = [] :=
      (trimL_eq_nil_iff _).mpr fun c hc => h c (List.mem_reverse.mp hc)
    simp [trimR, this]

theorem trimR_singleton (c : Char) :
    trimR [c] = if isWS c then [] else [c] := by
  by_cases h : isWS c
  · simp [trimR, trimL_cons_of_ws h, trimL, h]
  · simp [trimR, trimL_cons_of_not_ws h, h]

theorem trimR_cons (c : Char) (x : Str) :
    trimR (c :: x) = if trimR x = [] then trimR [c] else c :: trimR x := by
  have hrev : (c :: x).reverse = x.reverse ++ [c] := by simp
  by_cases h : trimL x.reverse = []
  · have hx : trimR x = [] := by simp [trimR, h]
    rw [trimR, hrev, trimL_append, if_pos h, if_pos hx]
    simp [trimR]
  · have hx : trimR x ≠ [] := by
      intro hc
      exact h (by simpa [trimR] using congrArg List.reverse hc)
    rw [trimR, hrev, trimL_append, if_neg h, if_neg hx]
    simp [trimR]

theorem trimR_cons_of_ne_nil {x : Str} (h : trimR x ≠ []) (c : Char) :
    trimR (c :: x) = c :: trimR x := by
  rw [trimR_cons, if_neg h]

theorem trim_comm (l : Str) : trimL (trimR l) = trimR (trimL l) := by
  induction l with
  | nil => rfl
  | cons c cs ih =>
    by_cases hc : isWS c
    · by_cases hcs : trimR cs = []
      · have h1 : trimR (c :: cs) = trimR [c] := by rw [trimR_cons, if_pos hcs]
        have hall : ∀ d ∈ cs, isWS d := (trimR_eq_nil_iff cs).mp hcs
        have h2 : trimL cs = [] := (trimL_eq_nil_iff cs).mpr hall
        have h3 : trimL (c :: cs) = [] := by
          rw [trimL_cons_of_ws hc]; exact h2
        rw [h1, trimR_singleton, if_pos hc, h3]
        rfl
      · rw [trimR_cons_of_ne_nil hcs, trimL_cons_of_ws hc, ih,
          trimL_cons_of_ws hc]
    · rw [trimL_cons_of_not_ws hc]
      by_cases hcs : trimR cs = []
      · rw [trimR_cons, if_pos hcs, trimR_singleton, if_neg hc,
          trimL_cons_of_not_ws hc]
      · rw [trimR_cons_of_ne_nil hcs, trimL_cons_of_not_ws hc]

theorem trimL_idem (l : Str) : trimL (trimL l) = trimL l := by
  induction l with
  | nil => rfl
  | cons c cs ih =>
    by_cases hc : isWS c
    · rw [trimL_cons_of_ws hc]; exact ih
    · rw [trimL_cons_of_not_ws hc, trimL_cons_of_not_ws hc]

theorem trimR_idem (l : Str) : trimR (trimR l) = trimR l := by
  simp [trimR, List.reverse_reverse, trimL_idem]

theorem pyStrip_cons_of_ws {c : Char} (h : isWS c) (x : Str) :
    pyStrip (c :: x) = pyStrip x := by
  rw [pyStrip, trim_comm, trimL_cons_of_ws h, pyStrip, trim_comm]

theorem pyStrip_concat_of_ws {c : Char} (h : isWS c) (x : Str) :
    pyStrip (x ++ [c]) = pyStrip x := by
  have : trimR (x ++ [c]) = trimR x := by
    rw [trimR, List.reverse_append, List.reverse_singleton,
      List.singleton_append, trimL_cons_of_ws h, trimR]
  rw [pyStrip, this, pyStrip]

theorem pyStrip_idem (l : Str) : pyStrip (pyStrip l) = pyStrip l := by
  show trimL (trimR (trimL (trimR l))) = trimL (trimR l)
  rw [← trim_comm (trimR l), trimR_idem, trimL_idem]

theorem pyStrip_eq_nil_iff (l : Str) : pyStrip l = [] ↔ ∀ c ∈ l, isWS c := by
  constructor
  · intro h c hc
    by_contra hnw
    have h1 : trimR l ≠ [] := by
      rw [Ne, trimR_eq_nil_iff]
      exact fun hall => hnw (hall c hc)
    have h2 : trimL (trimR l) = [] := h
    have hall := (trimL_eq_nil_iff _).mp h2
    have h3 : trimR (trimR l) = trimR l := trimR_idem l
    have h4 : trimR (trimR l) = [] := (trimR_eq_nil_iff _).mpr hall
    exact h1 (h3 ▸ h4)
  · intro h
    have h1 : trimR l = [] := (trimR_eq_nil_iff l).mpr h
    rw [pyStrip, h1]; rfl

theorem pyStrip_trimL (l : Str) : pyStrip (trimL l) = pyStrip l := by
  rw [pyStrip, trim_comm, trimL_idem, ← trim_comm]
  rfl

theorem pyStrip_trimR (l : Str) : pyStrip (trimR l) = pyStrip l := by
  rw [pyStrip, trimR_idem]
  rfl

theorem trimR_concat_of_ws {c : Char} (h : isWS c) (x : Str) :
    trimR (x ++ [c]) = trimR x := by
  rw [trimR, List.reverse_append, List.reverse_singleton,
    List.singleton_append, trimL_cons_of_ws h, trimR]

theorem trimR_concat_of_not_ws {c : Char} (h : ¬ isWS c) (x : Str) :
    trimR (x ++ [c]) = x ++ [c] := by
  rw [trimR, List.reverse_append, List.reverse_singleton,
    List.singleton_append, trimL_cons_of_not_ws h]
  simp

/-- Append one character to the last field of a line list. -/
def mapLastCat (c : Char) : List Str → List Str
  | [] => [[c]]
  | [x] => [x ++ [c]]
  | x :: x2 :: xs => x :: mapLastCat c (x2 :: xs)

theorem splitOnNl_concat_nl (l : Str) :
    splitOnNl (l ++ ['\n']) = splitOnNl l ++ [[]] := by
  have := splitOnNl_append_nl l []
  simpa [splitOnNl] using this

theorem splitOnNl_concat_of_ne {c : Char} (hc : ¬ c = '\n') (l : Str) :
    splitOnNl (l ++ [c]) = mapLastCat c (splitOnNl l) := by
  induction l with
  | nil => simp [splitOnNl, hc, mapLastCat]
  | cons c' cs ih =>
    obtain ⟨h, t, hr⟩ : ∃ h t, splitOnNl cs = h :: t := by
      cases hcs : splitOnNl cs with
      | nil => exact absurd hcs (splitOnNl_ne_nil cs)
      | cons h t => exact ⟨h, t, rfl⟩
    by_cases hc' : c' = '\n'
    · subst hc'
      have h1 : splitOnNl (('\n' :: cs) ++ [c]) =
          [] :: splitOnNl (cs ++ [c]) := by
        simp [splitOnNl]
      have h2 : splitOnNl ('\n' :: cs) = [] :: splitOnNl cs := by
        simp [splitOnNl]
      rw [h1, ih, h2, hr]
      rfl
    · have h1 : splitOnNl ((c' :: cs) ++ [c]) =
          (c' :: (splitOnNl (cs ++ [c])).headI) ::
            (splitOnNl (cs ++ [c])).tail := by
        simp [splitOnNl, hc']
      have h2 : splitOnNl (c' :: cs) = (c' :: h) :: t := by
        simp [splitOnNl, hc', hr]
      rw [h1, ih, h2, hr]
      cases t with
      | nil => rfl
      | cons t1 ts => rfl

theorem mem_mapLastCat {c : Char} {x : Str} {ls : List Str} (hne : ls ≠ [])
    (h : x ∈ mapLastCat c ls) : x ∈ ls ∨ ∃ y ∈ ls, x = y ++ [c] := by
  induction ls with
  | nil => exact absurd rfl hne
  | cons l ls ih =>
    cases ls with
    | nil =>
      simp [mapLastCat] at h
      exact Or.inr ⟨l, by simp [h]⟩
    | cons l2 ls2 =>
      rcases List.mem_cons.mp h with h1 | h1
      · exact Or.inl (h1 ▸ List.mem_cons_self _ _)
      · rcases ih (by simp) h1 with h2 | ⟨y, hy, hxy⟩
        · exact Or.inl (List.mem_cons_of_mem _ h2)
        · exact Or.inr ⟨y, List.mem_cons_of_mem _ hy, hxy⟩

theorem countP_mapLastCat (p : Str → Bool) {c : Char}
    (hp : ∀ y, p (y ++ [c]) = p y) :
    ∀ ls : List Str, ls ≠ [] → (mapLastCat c ls).countP p = ls.countP p := by
  intro ls
  induction ls with
  | nil => exact fun h => absurd rfl h
  | cons l ls ih =>
    intro _
    cases ls with
    | nil =>
      show List.countP p [l ++ [c]] = List.countP p [l]
      rw [List.countP_cons, List.countP_cons, hp l]
    | cons l2 ls2 =>
      have hm : mapLastCat c (l :: l2 :: ls2) = l :: mapLastCat c (l2 :: ls2) := rfl
      rw [hm, List.countP_cons, ih (by simp)]
      simp [List.countP_cons]

theorem countP_splitOnNl_trimL (p : Str → Bool)
    (hws : ∀ c x, isWS c → p (c :: x) = p x) (hnil : p [] = false) :
    ∀ t : Str, (splitOnNl (trimL t)).countP p = (splitOnNl t).countP p := by
  intro t
  induction t with
  | nil => rfl
  | cons c cs ih =>
    by_cases hc : isWS c
    · rw [trimL_cons_of_ws hc, ih]
      obtain ⟨h, t', hr⟩ : ∃ h t', splitOnNl cs = h :: t' := by
        cases hcs : splitOnNl cs with
        | nil => exact absurd hcs (splitOnNl_ne_nil cs)
        | cons h t' => exact ⟨h, t', rfl⟩
      by_cases hcn : c = '\n'
      · subst hcn
        have hs : splitOnNl ('\n' :: cs) = [] :: splitOnNl cs := by
          simp [splitOnNl]
        rw [hs, List.countP_cons, hnil]
        simp
      · have hs : splitOnNl (c :: cs) = (c :: h) :: t' := by
          simp [splitOnNl, hcn, hr]
        rw [hs, hr, List.countP_cons, List.countP_cons, hws c h hc]
    · rw [trimL_cons_of_not_ws hc]

theorem countP_splitOnNl_trimR (p : Str → Bool)
    (hws : ∀ c x, isWS c → p (x ++ [c]) = p x) (hnil : p [] = false) :
    ∀ t : Str, (splitOnNl (trimR t)).countP p = (splitOnNl t).countP p := by
  intro t
  induction t using List.reverseRecOn with
  | nil => rfl
  | append_singleton xs c ih =>
    by_cases hc : isWS c
    · rw [trimR_concat_of_ws hc, ih]
      by_cases hcn : c = '\n'
      · subst hcn
        rw [splitOnNl_concat_nl, List.countP_append, List.countP_cons,
          List.countP_nil, hnil]
        simp
      · rw [splitOnNl_concat_of_ne hcn,
          countP_mapLastCat p (fun y => hws c y hc) _ (splitOnNl_ne_nil xs)]
    · rw [trimR_concat_of_not_ws hc]

theorem countP_splitOnNl_pyStrip (p : Str → Bool)
    (hwsl : ∀ c x, isWS c → p (c :: x) = p x)
    (hwsr : ∀ c x, isWS c → p (x ++ [c]) = p x) (hnil : p [] = false)
    (t : Str) :
    (splitOnNl (pyStrip t)).countP p = (splitOnNl t).countP p := by
  rw [pyStrip, countP_splitOnNl_trimL p hwsl hnil,
    countP_splitOnNl_trimR p hwsr hnil]

theorem mem_map_pyStrip_trimL {z : Str} (hz : z ≠ []) :
    ∀ t : Str, z ∈ (splitOnNl t).map pyStrip →
      z ∈ (splitOnNl (trimL t)).map pyStrip := by
  intro t
  induction t with
  | nil => exact id
  | cons c cs ih =>
    intro hmem
    by_cases hc : isWS c
    · rw [trimL_cons_of_ws hc]
      apply ih
      obtain ⟨h, t', hr⟩ : ∃ h t', splitOnNl cs = h :: t' := by
        cases hcs : splitOnNl cs with
        | nil => exact absurd hcs (splitOnNl_ne_nil cs)
        | cons h t' => exact ⟨h, t', rfl⟩
      by_cases hcn : c = '\n'
      · subst hcn
        have hs : splitOnNl ('\n' :: cs) = [] :: splitOnNl cs := by
          simp [splitOnNl]
        rw [hs] at hmem
        rcases List.mem_map.mp hmem with ⟨y, hy, hyz⟩
        rcases List.mem_cons.mp hy with h1 | h1
        · subst h1
          rw [show pyStrip ([] : Str) = [] from rfl] at hyz
          exact absurd hyz.symm hz
        · exact List.mem_map.mpr ⟨y, h1, hyz⟩
      · have hs : splitOnNl (c :: cs) = (c :: h) :: t' := by
          simp [splitOnNl, hcn, hr]
        rw [hs] at hmem
        rcases List.mem_map.mp hmem with ⟨y, hy, hyz⟩
        rcases List.mem_cons.mp hy with h1 | h1
        · subst h1
          rw [pyStrip_cons_of_ws hc] at hyz
          exact List.mem_map.mpr ⟨h, hr ▸ List.mem_cons_self h t', hyz⟩
        · exact List.mem_map.mpr ⟨y, hr ▸ List.mem_cons_of_mem h h1, hyz⟩
    · rwa [trimL_cons_of_not_ws hc]

theorem mem_map_pyStrip_trimR {z : Str} (hz : z ≠ []) :
    ∀ t : Str, z ∈ (splitOnNl t).map pyStrip →
      z ∈ (splitOnNl (trimR t)).map pyStrip := by
  intro t
  induction t using List.reverseRecOn with
  | nil => exact id
  | append_singleton xs c ih =>
    intro hmem
    by_cases hc : isWS c
    · rw [trimR_concat_of_ws hc]
      apply ih
      by_cases hcn : c = '\n'
      · subst hcn
        rw [splitOnNl_concat_nl] at hmem
        rcases List.mem_map.mp hmem with ⟨y, hy, hyz⟩
        rcases List.mem_append.mp hy with h1 | h1
        · exact List.mem_map.mpr ⟨y, h1, hyz⟩
        · rw [List.mem_singleton.mp h1,
            show pyStrip ([] : Str) = [] from rfl] at hyz
          exact absurd hyz.symm hz
      · rw [splitOnNl_concat_of_ne hcn] at hmem
        rcases List.mem_map.mp hmem with ⟨y, hy, hyz⟩
        rcases mem_mapLastCat (splitOnNl_ne_nil xs) hy with h1 | ⟨w, hw, hwy⟩
        · exact List.mem_map.mpr ⟨y, h1, hyz⟩
        · subst hwy
          rw [pyStrip_concat_of_ws hc] at hyz
          exact List.mem_map.mpr ⟨w, hw, hyz⟩
    · rwa [trimR_concat_of_not_ws hc]

theorem mem_map_pyStrip_pyStrip {z : Str} (hz : z ≠ []) {t : Str}
    (h : z ∈ (splitOnNl t).map pyStrip) :
    z ∈ (splitOnNl (pyStrip t)).map pyStrip :=
  mem_map_pyStrip_trimL hz (trimR t) (mem_map_pyStrip_trimR hz t h)

/-! ### The `ensure_top_import_mathlib` normalization of `llm_agent.py` -/

/-- The canonical import line. -/
def importMathlibK : Str := "import Mathlib".data

/-- Test of `line.strip() == "import Mathlib"`. -/
def isK (l : Str) : Bool := pyStrip l == importMathlibK

theorem isK_iff (l : Str) : isK l = true ↔ pyStrip l = importMathlibK := by
  simp [isK]

theorem isK_nil : isK ([] : Str) = false := by decide

theorem isK_cons_of_ws {c : Char} (h : isWS c) (x : Str) :
    isK (c :: x) = isK x := by
  rw [isK, isK, pyStrip_cons_of_ws h]

theorem isK_concat_of_ws {c : Char} (h : isWS c) (x : Str) :
    isK (x ++ [c]) = isK x := by
  rw [isK, isK, pyStrip_concat_of_ws h]

/-- The deduplication loop of `ensure_top_import_mathlib`: keep the first
line whose stripped content is `import Mathlib`, drop later duplicates,
and report whether any such line was seen. -/
def cleanDedup : List Str → Bool → List Str × Bool
  | [], seen => ([], seen)
  | l :: ls, seen =>
    if isK l then
      let r := cleanDedup ls true
      (if seen then r.1 else l :: r.1, r.2)
    else
      let r := cleanDedup ls seen
      (l :: r.1, r.2)

theorem cleanDedup_seen (ls : List Str) (b : Bool) :
    (cleanDedup ls b).2 = (b || ls.any isK) := by
  induction ls generalizing b with
  | nil => simp [cleanDedup]
  | cons l ls ih =>
    by_cases h : isK l
    · simp [cleanDedup, h, ih]
    · simp [cleanDedup, h, ih, Bool.or_assoc]

theorem cleanDedup_countP_true (ls : List Str) :
    (cleanDedup ls true).1.countP isK = 0 := by
  induction ls with
  | nil => simp [cleanDedup]
  | cons l ls ih =>
    by_cases h : isK l
    · simpa [cleanDedup, h] using ih
    · simpa [cleanDedup, h, List.countP_cons, h] using ih

theorem cleanDedup_countP_false (ls : List Str) :
    (cleanDedup ls false).1.countP isK = if ls.any isK then 1 else 0 := by
  induction ls with
  | nil => simp [cleanDedup]
  | cons l ls ih =>
    by_cases h : isK l
    · simp [cleanDedup, h, List.countP_cons, cleanDedup_countP_true]
    · simp [cleanDedup, h, List.countP_cons, ih]

theorem mem_of_mem_cleanDedup {x : Str} {ls : List Str} {b : Bool}
    (h : x ∈ (cleanDedup ls b).1) : x ∈ ls := by
  induction ls generalizing b with
  | nil => exact h
  | cons l ls ih =>
    by_cases hl : isK l
    · by_cases hb : b
      · subst hb
        simp only [cleanDedup, hl, if_pos, if_true] at h
        exact List.mem_cons_of_mem l (ih h)
      · simp only [cleanDedup, hl, if_pos, Bool.not_eq_true] at h
        rw [if_neg (by simp [hb])] at h
        rcases List.mem_cons.mp h with h1 | h1
        · exact h1 ▸ List.mem_cons_self _ _
        · exact List.mem_cons_of_mem l (ih h1)
    · simp only [cleanDedup, hl, if_neg] at h
      rcases List.mem_cons.mp h with h1 | h1
      · exact h1 ▸ List.mem_cons_self _ _
      · exact List.mem_cons_of_mem l (ih h1)

theorem cleanDedup_of_countP_zero {ls : List Str}
    (h : ls.countP isK = 0) (b : Bool) : cleanDedup ls b = (ls, b) := by
  induction ls generalizing b with
  | nil => simp [cleanDedup]
  | cons l ls ih =>
    have hl : ¬ isK l := (List.countP_eq_zero.mp h) l (List.mem_cons_self _ _)
    have hls : ls.countP isK = 0 :=
      List.countP_eq_zero.mpr fun a ha =>
        (List.countP_eq_zero.mp h) a (List.mem_cons_of_mem l ha)
    simp [cleanDedup, hl, ih hls]

theorem cleanDedup_of_countP_one {ls : List Str}
    (h : ls.countP isK = 1) : cleanDedup ls false = (ls, true) := by
  induction ls with
  | nil => simp at h
  | cons l ls ih =>
    by_cases hl : isK l
    · have hls : ls.countP isK = 0 := by
        have := h
        rw [List.countP_cons, if_pos hl] at this
        omega
      simp [cleanDedup, hl, cleanDedup_of_countP_zero hls]
    · have hls : ls.countP isK = 1 := by
        have := h
        rwa [List.countP_cons, if_neg hl, Nat.add_zero] at this
      simp [cleanDedup, hl, ih hls]

theorem mem_cleanDedup_of_not_isK {x : Str} {ls : List Str}
    (hx : x ∈ ls) (hk : isK x = false) (b : Bool) :
    x ∈ (cleanDedup ls b).1 := by
  induction ls generalizing b with
  | nil => simp at hx
  | cons l ls ih =>
    rcases List.mem_cons.mp hx with h1 | h1
    · subst h1
      simp [cleanDedup, hk]
    · by_cases hl : isK l
      · by_cases hb : b
        · subst hb
          simp only [cleanDedup, hl, if_pos, if_true]
          exact ih h1 true
        · simp only [cleanDedup, hl, if_pos, Bool.not_eq_true]
          rw [if_neg (by simp [hb])]
          exact List.mem_cons_of_mem l (ih h1 true)
      · simp only [cleanDedup, hl, if_neg]
        exact List.mem_cons_of_mem l (ih h1 b)

/-- The normalized line list produced by `ensure_top_import_mathlib`
before re-joining: deduplicated lines with `import Mathlib` inserted at
the top when absent. -/
def ensureFin (t : Str) : List Str :=
  let r := cleanDedup (pySplitlines t) false
  if r.2 then r.1 else importMathlibK :: r.1

/-- `ensure_top_import_mathlib` from `llm_agent.py`: drop duplicate
`import Mathlib` lines (keeping the first), insert one at the top when
none is present, then `"\n".join(...).strip() + "\n"`. -/
def ensure_top_import_mathlib (t : Str) : Str :=
  pyStrip (joinNl (ensureFin t)) ++ ['\n']

theorem ensureFin_countP (t : Str) : (ensureFin t).countP isK = 1 := by
  rw [ensureFin]
  by_cases h : (cleanDedup (pySplitlines t) false).2
  · rw [if_pos h]
    have hany : (pySplitlines t).any isK = true := by
      have := cleanDedup_seen (pySplitlines t) false
      rw [h] at this
      simpa using this.symm
    rw [cleanDedup_countP_false, if_pos hany]
  · rw [if_neg h, List.countP_cons]
    have hany : (pySplitlines t).any isK = false := by
      have := cleanDedup_seen (pySplitlines t) false
      rw [eq_comm, Bool.false_or] at this
      cases hh : (pySplitlines t).any isK
      · rfl
      · exact absurd (this ▸ hh) h
    rw [cleanDedup_countP_false, if_neg (by simp [hany]),
      if_pos (by rw [isK_iff]; decide)]

theorem mem_splitOnNl_of_mem_pySplitlines {x : Str} {s : Str}
    (h : x ∈ pySplitlines s) : x ∈ splitOnNl s := by
  rw [pySplitlines] at h
  by_cases hs : s = []
  · simp [hs] at h
  · rw [if_neg hs] at h
    by_cases hl : (splitOnNl s).getLast? = some []
    · rw [if_pos hl] at h
      exact (List.dropLast_sublist (splitOnNl s)).mem h
    · rwa [if_neg hl] at h

theorem ensureFin_nl_free (t : Str) : ∀ x ∈ ensureFin t, '\n' ∉ x := by
  intro x hx
  rw [ensureFin] at hx
  by_cases h : (cleanDedup (pySplitlines t) false).2
  · rw [if_pos h] at hx
    exact not_nl_mem_of_mem_splitOnNl
      (mem_splitOnNl_of_mem_pySplitlines (mem_of_mem_cleanDedup hx))
  · rw [if_neg h] at hx
    rcases List.mem_cons.mp hx with h1 | h1
    · subst h1; decide
    · exact not_nl_mem_of_mem_splitOnNl
        (mem_splitOnNl_of_mem_pySplitlines (mem_of_mem_cleanDedup h1))

theorem ensureFin_ne_nil (t : Str) : ensureFin t ≠ [] := by
  intro h
  have := ensureFin_countP t
  rw [h] at this
  simp at this

/-- The lines of the normalized output are exactly the split of its
trimmed core. -/
theorem pySplitlines_ensure_top (t : Str) :
    pySplitlines (ensure_top_import_mathlib t) =
      splitOnNl (pyStrip (joinNl (ensureFin t))) := by
  rw [ensure_top_import_mathlib, pySplitlines]
  have hne : pyStrip (joinNl (ensureFin t)) ++ ['\n'] ≠ [] := by simp
  rw [if_neg hne, splitOnNl_concat_nl]
  simp [List.getLast?_concat, List.dropLast_concat]

/-- First half of claim C10's invariant: the output of
`ensure_top_import_mathlib` has exactly one line whose stripped content
is `import Mathlib`. -/
theorem ensure_top_one_importK (t : Str) :
    (pySplitlines (ensure_top_import_mathlib t)).countP isK = 1 := by
  rw [pySplitlines_ensure_top,
    countP_splitOnNl_pyStrip isK (fun c x h => isK_cons_of_ws h x)
      (fun c x h => isK_concat_of_ws h x) isK_nil,
    splitOnNl_joinNl (ensureFin_ne_nil t) (ensureFin_nl_free t),
    ensureFin_countP]

/-- Second half of claim C10's invariant: `ensure_top_import_mathlib`
is idempotent. -/
theorem ensure_top_idem (t : Str) :
    ensure_top_import_mathlib (ensure_top_import_mathlib t) =
      ensure_top_import_mathlib t := by
  have hlines := pySplitlines_ensure_top t
  have hcount : (pySplitlines (ensure_top_import_mathlib t)).countP isK = 1 :=
    ensure_top_one_importK t
  have hded := cleanDedup_of_countP_one hcount
  have hfin2 : ensureFin (ensure_top_import_mathlib t) =
      pySplitlines (ensure_top_import_mathlib t) := by
    rw [ensureFin, hded]
    rfl
  rw [ensure_top_import_mathlib, hfin2, hlines, joinNl_splitOnNl,
    pyStrip_idem]
  rfl

/-! ### `strip_code_fences` and `build_fallback_skeleton` of `llm_agent.py` -/

/-- The code-fence marker. -/
def fence3 : Str := "```".data

/-- `strip_code_fences` from `llm_agent.py`. -/
def strip_code_fences (text : Str) : Str :=
  let t := pyStrip text
  if fence3.isPrefixOf t then
    let lines := (pySplitlines t).drop 1
    let lines2 :=
      match lines.getLast? with
      | some lastLine =>
        if fence3.isPrefixOf (pyStrip lastLine) then lines.dropLast else lines
      | none => lines
    pyStrip (joinNl lines2)
  else t

def importSp : Str := "import ".data
def openSp : Str := "open ".data
def docStart : Str := "/--".data
def docEnd : Str := "-/".data
def theoremSp : Str := "theorem ".data
def lemmaSp : Str := "lemma ".data

/-- Leading scan of `build_fallback_skeleton`: collect initial lines
whose stripped form starts with `import ` or `open `, stopping at the
first other line. -/
def leadImpOp : List Str → List Str × List Str
  | [] => ([], [])
  | l :: ls =>
    if importSp.isPrefixOf (pyStrip l) then
      let r := leadImpOp ls
      (l :: r.1, r.2)
    else if openSp.isPrefixOf (pyStrip l) then
      let r := leadImpOp ls
      (r.1, l :: r.2)
    else ([], [])

/-- Collect docstring lines up to and including the closing marker line. -/
def collectDoc : List Str → List Str
  | [] => []
  | l :: ls => if docEnd.isPrefixOf (trimL l) then [l] else l :: collectDoc ls

/-- Find the first docstring (a line whose lstrip starts with the
docstring opening marker). -/
def findDoc : List Str → Option Str
  | [] => none
  | l :: ls =>
    if docStart.isPrefixOf (trimL l) then some (joinNl (l :: collectDoc ls))
    else findDoc ls

def isDeclLine (l : Str) : Bool :=
  theoremSp.isPrefixOf (trimL l) || lemmaSp.isPrefixOf (trimL l)

/-- Lines from the first `theorem `/`lemma ` line on, if any. -/
def afterDecl : List Str → Option (List Str)
  | [] => none
  | l :: ls => if isDeclLine l then some (l :: ls) else afterDecl ls

/-- Whether the text contains the two-character sequence `:=`. -/
def hasCE : Str → Bool
  | [] => false
  | [_] => false
  | c1 :: c2 :: rest => (c1 = ':' && c2 = '=') || hasCE (c2 :: rest)

/-- The text before the first `:=`. -/
def beforeCE : Str → Str
  | [] => []
  | [c] => [c]
  | c1 :: c2 :: rest =>
    if c1 = ':' && c2 = '=' then [] else c1 :: beforeCE (c2 :: rest)

/-- Collect lines until (and including) the first one containing `:=`;
`none` when no such line exists. -/
def takeSig : List Str → Option (List Str)
  | [] => none
  | l :: ls => if hasCE l then some [l] else (takeSig ls).map (l :: ·)

/-- The placeholder-proof tail appended to the signature. -/
def skTail : Str := " := by\n  sorry\n".data

/-- The signature block of the first theorem/lemma declaration with an
assignment: the lines from the first declaration line up to and
including the first line containing the assignment token. -/
def firstSigbuf (lines : List Str) : Option (List Str) :=
  match afterDecl lines with
  | none => none
  | some d => takeSig d

/-- The signature text the skeleton keeps: the signature block joined,
cut before the first assignment token and right-stripped
(`sig_text.split(":=", 1)[0].rstrip()`). -/
def sigLeftOf (sigbuf : List Str) : Str := trimR (beforeCE (joinNl sigbuf))

/-- Assembly of the skeleton's line list: leading imports (followed by
a blank line when present), leading opens (likewise), the first
docstring when found, and the signature with its body replaced by the
placeholder proof. -/
def skAssembly (lines : List Str) (sigbuf : List Str) : List Str :=
  (if (leadImpOp lines).1 = [] then [] else (leadImpOp lines).1 ++ [[]]) ++
  (if (leadImpOp lines).2 = [] then [] else (leadImpOp lines).2 ++ [[]]) ++
  (match findDoc lines with | some d => [d] | none => []) ++
  [sigLeftOf sigbuf ++ skTail]

/-- `build_fallback_skeleton` from `llm_agent.py`. -/
def build_fallback_skeleton (src : Str) : Option Str :=
  let lines := pySplitlines src
  match afterDecl lines with
  | none => none
  | some declLines =>
    match takeSig declLines with
    | none => none
    | some sigbuf =>
      some (ensure_top_import_mathlib (joinNl (skAssembly lines sigbuf)))

/-! ### `regenerate_file` of `llm_recheck_agent.py` -/

/-- The trivial always-valid skeleton written when no fallback can be
synthesized. -/
def minimalSkeleton (stem : Str) : Str :=
  ("import Mathlib\n\n/-- Auto-regenerated minimal skeleton due to repeated empty responses. -/\ntheorem " : String).data
    ++ stem ++ ("_main : True := by\n  trivial\n" : String).data

inductive RegenErr
  | readErr
deriving DecidableEq

/-- `regenerate_file` from `llm_recheck_agent.py`, as a function of the
read result of the artifact (`none` models an unreadable file) and the
net outcome of the generation-service retry loop (`none` models no
usable content after retries and errors).  Returns the content written
over the artifact (if any), the success flag and the error. -/
def regenerate_file (src : Option Str) (genContent : Option Str)
    (normalize : Bool) (stem : Str) : Option Str × Bool × Option RegenErr :=
  match src with
  | none => (none, false, some .readErr)
  | some s =>
    match genContent with
    | some c =>
      let content := strip_code_fences c
      let content :=
        if normalize then ensure_top_import_mathlib content else content
      (some content, true, none)
    | none =>
      match build_fallback_skeleton s with
      | some fb =>
        (some (if normalize then ensure_top_import_mathlib fb else fb),
          true, none)
      | none => (some (minimalSkeleton stem), true, none)

/-! ### `build_lean_file` of `parallel_build_checker.py` -/

/-- Outcome of the compiler subprocess: normal completion with an exit
code and captured output, a wall-clock timeout, or a spawn error. -/
inductive ProcOutcome
  | completed (rc : Int) (stdout stderr : Str)
  | timedOut
  | spawnFail (msg : Str)
deriving DecidableEq

structure LogEntry where
  cmd : Str
  rc : Int
  ok : Bool
  stdout : Str
  stderr : Str
deriving DecidableEq

structure BuildRet where
  id : Str
  success : Bool
  stdout : Str
  stderr : Str
  logPath : Str
deriving DecidableEq

def timeoutMsg : Str := "Build timeout after 60 seconds".data
def spawnMsgPre : Str := "Build error: ".data

/-- Log file path: `output_dir / f"{block_id}_{log_suffix}.log"`. -/
def logPathOf (outDir stem suffix : Str) : Str :=
  outDir ++ ("/" : String).data ++ stem ++ ("_" : String).data
    ++ (suffix ++ (".log" : String).data)

/-- `build_lean_file` from `parallel_build_checker.py`: classify the
outcome, and (on completion only) write one log file containing the
command, return code and full stdout/stderr. -/
def build_lean_file (stem suffix cmd outDir : Str) (outcome : ProcOutcome) :
    BuildRet × Option (Str × LogEntry) :=
  match outcome with
  | .completed rc out err =>
    let ok := rc == 0
    let path := logPathOf outDir stem suffix
    (⟨stem, ok, out, err, path⟩, some (path, ⟨cmd, rc, ok, out, err⟩))
  | .timedOut => (⟨stem, false, [], timeoutMsg, []⟩, none)
  | .spawnFail m => (⟨stem, false, [], spawnMsgPre ++ m, []⟩, none)

/-! ### `run_parallel_build_check` of `parallel_build_checker.py` -/

structure CheckSummary where
  totalFiles : Nat
  successfulBlocks : List Str
  failedBlocks : List Str
  retryAttempted : Bool
  recoveredBlocks : List Str
  stillFailedBlocks : List Str
  successRate : ℚ

/-- `len(successful)/len(files)*100 if files else 0`. -/
def successRateOf (succ : Nat) (total : Nat) : ℚ :=
  if total = 0 then 0 else (succ : ℚ) / (total : ℚ) * 100

/-- The classification and reconciliation logic of
`run_parallel_build_check`: `r1` gives each file's first-pass result,
`r2` its retry result.  Results are aggregated as sets of ids; the
completion order of the worker pool does not affect them. -/
def run_parallel_build_check (files : List Str) (r1 r2 : Str → Bool) :
    CheckSummary :=
  let succ1 := files.filter r1
  let fail1 := files.filter (fun i => ! r1 i)
  if fail1 = [] then
    { totalFiles := files.length
      successfulBlocks := succ1
      failedBlocks := []
      retryAttempted := false
      recoveredBlocks := []
      stillFailedBlocks := []
      successRate := successRateOf succ1.length files.length }
  else
    let recovered := fail1.filter r2
    let still := fail1.filter (fun i => ! r2 i)
    let finalSuccess := (succ1 ++ recovered).dedup
    { totalFiles := files.length
      successfulBlocks := finalSuccess
      failedBlocks := still
      retryAttempted := true
      recoveredBlocks := recovered
      stillFailedBlocks := still
      successRate := successRateOf finalSuccess.length files.length }

/-! ### The regeneration / rollback flow of `llm_recheck_agent.main` -/

structure RecheckOut where
  toFix : List Str
  cache : Str → Option Str
  bak : Str → Option Str
  regenWrote : Str → Option Str
  fsAfterRegen : Str → Option Str
  finalFailed : List Str
  restored : List Str
  fsFinal : Str → Option Str
  secondRate : ℚ

/-- `to_fix = [by_stem[s] for s in failed_blocks if s in by_stem]`. -/
def rcToFix (failedBlocks : List Str) (resolvable : Str → Bool) : List Str :=
  failedBlocks.filter resolvable

/-- The in-memory backup cache (and, identically under succeeding
writes, the on-disk backup file): each artifact in the to-fix list has
its readable content captured before regeneration. -/
def rcCache (failedBlocks : List Str) (resolvable : Str → Bool)
    (fs0 : Str → Option Str) : Str → Option Str := fun i =>
  if i ∈ rcToFix failedBlocks resolvable then fs0 i else none

/-- The content written by the regeneration worker for each artifact,
if any. -/
def rcRegen (failedBlocks : List Str) (resolvable : Str → Bool)
    (fs0 gen : Str → Option Str) (normalize : Bool) :
    Str → Option Str := fun i =>
  if i ∈ rcToFix failedBlocks resolvable then
    (regenerate_file (fs0 i) (gen i) normalize i).1
  else none

/-- On-disk content after regeneration. -/
def rcFs1 (failedBlocks : List Str) (resolvable : Str → Bool)
    (fs0 gen : Str → Option Str) (normalize : Bool) :
    Str → Option Str := fun i =>
  match rcRegen failedBlocks resolvable fs0 gen normalize i with
  | some w => some w
  | none => fs0 i

/-- Ids still failing after the post-regeneration compile pass. -/
def rcFinalFailed (failedBlocks : List Str) (resolvable : Str → Bool)
    (post : Str → Bool) : List Str :=
  (rcToFix failedBlocks resolvable).filter (fun i => ! post i)

/-- The content used to restore a still-failed artifact: the in-memory
cache, then the on-disk backup. -/
def rcRestoredSrc (failedBlocks : List Str) (resolvable : Str → Bool)
    (fs0 : Str → Option Str) : Str → Option Str := fun i =>
  match rcCache failedBlocks resolvable fs0 i with
  | some s => some s
  | none => rcCache failedBlocks resolvable fs0 i

/-- On-disk content after the rollback step. -/
def rcFs2 (failedBlocks : List Str) (resolvable : Str → Bool)
    (fs0 gen : Str → Option Str) (normalize : Bool) (post : Str → Bool) :
    Str → Option Str := fun i =>
  if i ∈ rcFinalFailed failedBlocks resolvable post then
    match rcRestoredSrc failedBlocks resolvable fs0 i with
    | some s => some s
    | none => rcFs1 failedBlocks resolvable fs0 gen normalize i
  else rcFs1 failedBlocks resolvable fs0 gen normalize i

/-- The post-first-pass part of `main` in `llm_recheck_agent.py`, with
the default failed-only second-build scope.  `failedBlocks` is the
first pass's failed id list, `resolvable` models `s in by_stem`, `fs0`
is the pre-run on-disk content of each artifact (`none` = unreadable),
`gen i` is the net outcome of the generation service for artifact `i`,
and `post` is the verdict of the post-regeneration compile pass.
Filesystem writes are modelled as succeeding. -/
def recheck_main (failedBlocks : List Str) (resolvable : Str → Bool)
    (fs0 : Str → Option Str) (gen : Str → Option Str) (normalize : Bool)
    (post : Str → Bool) : RecheckOut :=
  let toFix := rcToFix failedBlocks resolvable
  let cache := rcCache failedBlocks resolvable fs0
  let finalFailed := rcFinalFailed failedBlocks resolvable post
  let restoredSrc := rcRestoredSrc failedBlocks resolvable fs0
  let restored := finalFailed.filter (fun i => (restoredSrc i).isSome)
  let successes := toFix.filter post
  { toFix := toFix
    cache := cache
    bak := cache
    regenWrote := rcRegen failedBlocks resolvable fs0 gen normalize
    fsAfterRegen := rcFs1 failedBlocks resolvable fs0 gen normalize
    finalFailed := finalFailed
    restored := restored
    fsFinal := rcFs2 failedBlocks resolvable fs0 gen normalize post
    secondRate := successRateOf successes.length toFix.length }

/-! ### `OpenRouterClient.chat_completion` of `llm_agent.py` -/

inductive ApiResp
  | ok (body : Str)
  | httpErr (code : Nat) (body : Str)
  | netErr
deriving DecidableEq

/-- Statuses retried by `chat_completion`: 429 and every 5xx. -/
def retryableCode (c : Nat) : Bool :=
  c == 429 || (decide (500 ≤ c) && decide (c < 600))

def respRetryable : ApiResp → Bool
  | .ok _ => false
  | .httpErr c _ => retryableCode c
  | .netErr => true

inductive CallResult
  | success (body : Str)
  | terminal (code : Nat) (body : Str)
  | gaveUp (last : ApiResp)
  | unknownFail
deriving DecidableEq

structure CallTrace where
  result : CallResult
  backoffs : List ℚ
  sleeps : List ℚ
  attemptsUsed : Nat
deriving DecidableEq

/-- The retry loop of `chat_completion`: at most `fuel` attempts; a
retryable HTTP error sleeps `max(retry_after, delay)` and doubles the
backoff `delay` capped at 20; a network error sleeps `delay`; any
other HTTP error is raised immediately; when attempts are exhausted the
last error is raised.  `backoffs` records the backoff component of each
sleep, `sleeps` the slept durations. -/
def chatLoop (resp : Nat → ApiResp) (retryAfter : Nat → ℚ) :
    Nat → Nat → ℚ → Option ApiResp → CallTrace
  | 0, k, _, last =>
    match last with
    | some e => ⟨.gaveUp e, [], [], k⟩
    | none => ⟨.unknownFail, [], [], k⟩
  | fuel + 1, k, delay, _ =>
    match resp k with
    | .ok b => ⟨.success b, [], [], k + 1⟩
    | .httpErr c b =>
      if retryableCode c then
        let s := max (retryAfter k) delay
        let r := chatLoop resp retryAfter fuel (k + 1) (min (delay * 2) 20)
          (some (.httpErr c b))
        ⟨r.result, delay :: r.backoffs, s :: r.sleeps, r.attemptsUsed⟩
      else ⟨.terminal c b, [], [], k + 1⟩
    | .netErr =>
      let r := chatLoop resp retryAfter fuel (k + 1) (min (delay * 2) 20)
        (some .netErr)
      ⟨r.result, delay :: r.backoffs, delay :: r.sleeps, r.attemptsUsed⟩

/-- `chat_completion`: 5 attempts, initial backoff delay 1 second. -/
def chat_completion (resp : Nat → ApiResp) (retryAfter : Nat → ℚ) :
    CallTrace :=
  chatLoop resp retryAfter 5 0 1 none

/-! ### Helper lemmas for the compiler-invoker claims -/

theorem build_success_iff (stem suffix cmd outDir : Str) (o : ProcOutcome) :
    (build_lean_file stem suffix cmd outDir o).1.success = true ↔
      ∃ rc out err, o = .completed rc out err ∧ rc = 0 := by
  cases o with
  | completed rc out err =>
    simp only [build_lean_file]
    constructor
    · intro h
      exact ⟨rc, out, err, rfl, by simpa using h⟩
    · rintro ⟨rc', out', err', heq, hrc⟩
      injection heq with h1 h2 h3
      subst h1
      simpa using hrc
  | timedOut =>
    simp only [build_lean_file]
    constructor
    · intro h; exact absurd h (by simp)
    · rintro ⟨rc', out', err', heq, hrc⟩; exact ProcOutcome.noConfusion heq
  | spawnFail m =>
    simp only [build_lean_file]
    constructor
    · intro h; exact absurd h (by simp)
    · rintro ⟨rc', out', err', heq, hrc⟩; exact ProcOutcome.noConfusion heq

theorem logPathOf_inj_suffix {outDir stem s1 s2 : Str}
    (h : logPathOf outDir stem s1 = logPathOf outDir stem s2) : s1 = s2 := by
  rw [logPathOf, logPathOf] at h
  exact List.append_cancel_right (List.append_cancel_left h)

/-- C5: `build_lean_file` reports success iff the subprocess completed
with exit code zero; non-zero exits, timeouts and spawn errors are all
failures, and in the timeout and spawn-error cases the returned stdout
is empty and the returned stderr is the synthetic message. -/
theorem claim_C5_compiler_outcome_classification :
    ∀ (stem suffix cmd outDir : Str) (o : ProcOutcome),
      ((build_lean_file stem suffix cmd outDir o).1.success = true ↔
        ∃ rc out err, o = .completed rc out err ∧ rc = 0) ∧
      ((build_lean_file stem suffix cmd outDir .timedOut).1 =
        ⟨stem, false, [], timeoutMsg, []⟩) ∧
      (∀ m, (build_lean_file stem suffix cmd outDir (.spawnFail m)).1 =
        ⟨stem, false, [], spawnMsgPre ++ m, []⟩) := by
  intro stem suffix cmd outDir o
  exact ⟨build_success_iff stem suffix cmd outDir o, rfl, fun m => rfl⟩

/-- Witness for C5 at a concrete outcome. -/
theorem claim_C5_witness :
    (build_lean_file ("Block_017" : String).data ("build" : String).data
      ("cmd" : String).data ("logs" : String).data
      (.completed 0 [] [])).1.success = true :=
  (claim_C5_compiler_outcome_classification _ _ _ _
    (.completed 0 [] [])).1.mpr ⟨0, [], [], rfl, rfl⟩

/-- C6 counterexample: a timed-out invocation writes no log file at all
(the returned log path is empty and no log write happens), refuting the
claim that every invocation, including failing ones, writes a log
file. -/
theorem claim_C6_counterexample :
    (build_lean_file ("Block_017" : String).data ("build" : String).data
        ("cmd" : String).data ("logs" : String).data .timedOut).2 = none ∧
    (build_lean_file ("Block_017" : String).data ("build" : String).data
        ("cmd" : String).data ("logs" : String).data .timedOut).1.logPath
      = [] :=
  ⟨rfl, rfl⟩

/-- C6 (amended): every invocation in which the compiler subprocess
completes — including failing non-zero exits — writes exactly one log
file holding the invoked command, the return code and the full
stdout/stderr, with the attempt label embedded in the filename so that
distinct attempt labels give distinct log paths for the same artifact;
timeout and spawn-error invocations write no log file and return an
empty log path. -/
theorem claim_C6_log_per_attempt :
    ∀ (stem suffix cmd outDir : Str),
      (∀ rc out err,
        (build_lean_file stem suffix cmd outDir (.completed rc out err)).2 =
          some (logPathOf outDir stem suffix,
            ⟨cmd, rc, rc == 0, out, err⟩) ∧
        (build_lean_file stem suffix cmd outDir
          (.completed rc out err)).1.logPath = logPathOf outDir stem suffix) ∧
      (∀ s1 s2 : Str, s1 ≠ s2 →
        logPathOf outDir stem s1 ≠ logPathOf outDir stem s2) ∧
      ((build_lean_file stem suffix cmd outDir .timedOut).2 = none ∧
        (build_lean_file stem suffix cmd outDir .timedOut).1.logPath = []) ∧
      (∀ m, (build_lean_file stem suffix cmd outDir (.spawnFail m)).2 = none ∧
        (build_lean_file stem suffix cmd outDir
          (.spawnFail m)).1.logPath = []) := by
  intro stem suffix cmd outDir
  refine ⟨fun rc out err => ⟨rfl, rfl⟩, ?_, ⟨rfl, rfl⟩, fun m => ⟨rfl, rfl⟩⟩
  intro s1 s2 hne heq
  exact hne (logPathOf_inj_suffix heq)

/-- Witness for C6 with the three concrete attempt labels. -/
theorem claim_C6_witness :
    logPathOf ("logs" : String).data ("Block_017" : String).data
        ("build" : String).data ≠
      logPathOf ("logs" : String).data ("Block_017" : String).data
        ("rebuild" : String).data ∧
    logPathOf ("logs" : String).data ("Block_017" : String).data
        ("rebuild" : String).data ≠
      logPathOf ("logs" : String).data ("Block_017" : String).data
        ("postregen" : String).data :=
  ⟨((claim_C6_log_per_attempt ("Block_017" : String).data
        ("build" : String).data ("cmd" : String).data
        ("logs" : String).data).2.1 _ _ (by decide)),
    ((claim_C6_log_per_attempt ("Block_017" : String).data
        ("build" : String).data ("cmd" : String).data
        ("logs" : String).data).2.1 _ _ (by decide))⟩

/-! ### Claims about retry reconciliation and the success rate -/

/-- C3: when some artifacts fail pass 1, an id is recovered iff its
single retry succeeds, still-failed otherwise; recovered and
still-failed are disjoint and partition the pass-1 failures; the final
success set is the pass-1 successes united with the recovered ids, and
the final failed list is exactly the still-failed list. -/
theorem claim_C3_retry_reconciliation :
    ∀ (files : List Str) (r1 r2 : Str → Bool),
      files.filter (fun i => ! r1 i) ≠ [] →
      (∀ i, i ∈ (run_parallel_build_check files r1 r2).recoveredBlocks ↔
        (i ∈ files.filter (fun i => ! r1 i) ∧ r2 i = true)) ∧
      (∀ i, i ∈ (run_parallel_build_check files r1 r2).stillFailedBlocks ↔
        (i ∈ files.filter (fun i => ! r1 i) ∧ r2 i = false)) ∧
      (∀ i, ¬ (i ∈ (run_parallel_build_check files r1 r2).recoveredBlocks ∧
        i ∈ (run_parallel_build_check files r1 r2).stillFailedBlocks)) ∧
      (∀ i, i ∈ files.filter (fun i => ! r1 i) ↔
        (i ∈ (run_parallel_build_check files r1 r2).recoveredBlocks ∨
          i ∈ (run_parallel_build_check files r1 r2).stillFailedBlocks)) ∧
      (∀ i, i ∈ (run_parallel_build_check files r1 r2).successfulBlocks ↔
        ((i ∈ files ∧ r1 i = true) ∨
          i ∈ (run_parallel_build_check files r1 r2).recoveredBlocks)) ∧
      (run_parallel_build_check files r1 r2).failedBlocks =
        (run_parallel_build_check files r1 r2).stillFailedBlocks := by
  intro files r1 r2 hfail
  have hS : run_parallel_build_check files r1 r2 =
      { totalFiles := files.length
        successfulBlocks :=
          ((files.filter r1) ++
            (files.filter (fun i => ! r1 i)).filter r2).dedup
        failedBlocks :=
          (files.filter (fun i => ! r1 i)).filter (fun i => ! r2 i)
        retryAttempted := true
        recoveredBlocks := (files.filter (fun i => ! r1 i)).filter r2
        stillFailedBlocks :=
          (files.filter (fun i => ! r1 i)).filter (fun i => ! r2 i)
        successRate :=
          successRateOf
            ((files.filter r1) ++
              (files.filter (fun i => ! r1 i)).filter r2).dedup.length
            files.length } := by
    rw [run_parallel_build_check, if_neg hfail]
  rw [hS]
  refine ⟨?_, ?_, ?_, ?_, ?_, rfl⟩
  · intro i
    simp only [List.mem_filter]
  · intro i
    simp only [List.mem_filter, Bool.not_eq_true']
  · intro i
    simp only [List.mem_filter]
    rintro ⟨⟨-, h2⟩, ⟨-, h3⟩⟩
    simp [h2] at h3
  · intro i
    constructor
    · intro hi
      by_cases h2 : r2 i
      · exact Or.inl (List.mem_filter.mpr ⟨hi, h2⟩)
      · exact Or.inr (List.mem_filter.mpr ⟨hi, by simpa using h2⟩)
    · rintro (hi | hi) <;> exact (List.mem_filter.mp hi).1
  · intro i
    simp [List.mem_dedup, List.mem_append, List.mem_filter]

/-- Witness for C3 on a two-file run where `b` fails pass 1 and fails
its retry. -/
theorem claim_C3_witness :
    ("b" : String).data ∈ (run_parallel_build_check
        [("a" : String).data, ("b" : String).data]
        (fun i => i == ("a" : String).data) (fun _ => false)).stillFailedBlocks
      ↔ (("b" : String).data ∈
          ([("a" : String).data, ("b" : String).data].filter
            (fun i => ! (i == ("a" : String).data))) ∧
        (fun _ : Str => false) (("b" : String).data) = false) :=
  (claim_C3_retry_reconciliation
    [("a" : String).data, ("b" : String).data]
    (fun i => i == ("a" : String).data) (fun _ => false)
    (by decide)).2.1 (("b" : String).data)

/-- C9: the summary success rate is `successes / total * 100` when the
total is positive and `0` when the total is zero, both for
`run_parallel_build_check` and for the failed-only second pass summary
of the recheck agent. -/
theorem claim_C9_success_rate :
    ∀ (files : List Str) (r1 r2 : Str → Bool),
      (files ≠ [] →
        (run_parallel_build_check files r1 r2).successRate =
          ((run_parallel_build_check files r1 r2).successfulBlocks.length : ℚ)
            / ((run_parallel_build_check files r1 r2).totalFiles : ℚ) * 100) ∧
      (files = [] → (run_parallel_build_check files r1 r2).successRate = 0) ∧
      (∀ (failedBlocks : List Str) (resolvable : Str → Bool)
          (fs0 gen : Str → Option Str) (normalize : Bool)
          (post : Str → Bool),
        ((recheck_main failedBlocks resolvable fs0 gen normalize post).toFix
            ≠ [] →
          (recheck_main failedBlocks resolvable fs0 gen normalize
            post).secondRate =
            (((recheck_main failedBlocks resolvable fs0 gen normalize
              post).toFix.filter post).length : ℚ) /
            (((recheck_main failedBlocks resolvable fs0 gen normalize
              post).toFix).length : ℚ) * 100) ∧
        ((recheck_main failedBlocks resolvable fs0 gen normalize post).toFix
            = [] →
          (recheck_main failedBlocks resolvable fs0 gen normalize
            post).secondRate = 0)) := by
  intro files r1 r2
  refine ⟨?_, ?_, ?_⟩
  · intro hne
    have hlen : files.length ≠ 0 := by
      simpa [List.length_eq_zero] using hne
    rw [run_parallel_build_check]
    by_cases hfail : files.filter (fun i => ! r1 i) = [] <;>
      simp [hfail, successRateOf, hlen]
  · intro hnil
    subst hnil
    rfl
  · intro failedBlocks resolvable fs0 gen normalize post
    have htf :
        (recheck_main failedBlocks resolvable fs0 gen normalize post).toFix =
          failedBlocks.filter resolvable := rfl
    have hsr :
        (recheck_main failedBlocks resolvable fs0 gen normalize
          post).secondRate =
          successRateOf ((failedBlocks.filter resolvable).filter post).length
            (failedBlocks.filter resolvable).length := rfl
    constructor
    · intro hne
      rw [htf] at hne
      have hlen : (failedBlocks.filter resolvable).length ≠ 0 := by
        simpa [List.length_eq_zero] using hne
      rw [hsr, htf, successRateOf, if_neg hlen]
    · intro hnil
      rw [htf] at hnil
      rw [hsr, successRateOf, if_pos (by simp [hnil])]

/-- Witness for C9 on a concrete one-file run. -/
theorem claim_C9_witness :
    (run_parallel_build_check [("a" : String).data]
      (fun _ => true) (fun _ => true)).successRate =
      ((run_parallel_build_check [("a" : String).data]
        (fun _ => true) (fun _ => true)).successfulBlocks.length : ℚ)
        / ((run_parallel_build_check [("a" : String).data]
          (fun _ => true) (fun _ => true)).totalFiles : ℚ) * 100 :=
  (claim_C9_success_rate [("a" : String).data]
    (fun _ => true) (fun _ => true)).1 (by decide)

/-! ### Claims about regeneration backup and rollback -/

theorem regenerate_src_none (g : Option Str) (nz : Bool) (stem : Str) :
    regenerate_file none g nz stem = (none, false, some .readErr) := rfl

theorem regenerate_some_isSome (s : Str) (g : Option Str) (nz : Bool)
    (stem : Str) : (regenerate_file (some s) g nz stem).1.isSome = true := by
  cases g with
  | some c => rfl
  | none =>
    cases h : build_fallback_skeleton s with
    | some fb => simp [regenerate_file, h]
    | none => simp [regenerate_file, h]

theorem rcFs2_eq_fs0_of_finalFailed {failedBlocks : List Str}
    {resolvable : Str → Bool} {fs0 gen : Str → Option Str}
    {normalize : Bool} {post : Str → Bool} {i : Str}
    (hi : i ∈ rcFinalFailed failedBlocks resolvable post) :
    rcFs2 failedBlocks resolvable fs0 gen normalize post i = fs0 i := by
  have hiF : i ∈ rcToFix failedBlocks resolvable :=
    (List.mem_filter.mp hi).1
  simp only [rcFs2, if_pos hi, rcRestoredSrc, rcCache, if_pos hiF]
  cases h0 : fs0 i with
  | some s => rfl
  | none =>
    simp only [rcFs1, rcRegen, if_pos hiF, h0, regenerate_src_none]

/-- C1: after the post-regeneration pass, every still-failed artifact's
final on-disk content equals its pre-run content; when a backup was
captured the final content is byte-identical to it; restored artifacts
are exactly still-failed ones with a backup, and no restored artifact
passed the post-regeneration compile (so each artifact ends in at most
one of verified-success / restored-to-original). -/
theorem claim_C1_rollback_guarantee :
    ∀ (failedBlocks : List Str) (resolvable : Str → Bool)
      (fs0 gen : Str → Option Str) (normalize : Bool) (post : Str → Bool),
      (∀ i, i ∈ (recheck_main failedBlocks resolvable fs0 gen normalize
          post).finalFailed →
        (recheck_main failedBlocks resolvable fs0 gen normalize
          post).fsFinal i = fs0 i) ∧
      (∀ i s, i ∈ (recheck_main failedBlocks resolvable fs0 gen normalize
          post).finalFailed →
        (recheck_main failedBlocks resolvable fs0 gen normalize
          post).bak i = some s →
        (recheck_main failedBlocks resolvable fs0 gen normalize
          post).fsFinal i = some s) ∧
      (∀ i, i ∈ (recheck_main failedBlocks resolvable fs0 gen normalize
          post).restored →
        i ∈ (recheck_main failedBlocks resolvable fs0 gen normalize
          post).finalFailed ∧ post i = false) ∧
      (∀ i, post i = true →
        i ∉ (recheck_main failedBlocks resolvable fs0 gen normalize
          post).restored) := by
  intro failedBlocks resolvable fs0 gen normalize post
  have hff : (recheck_main failedBlocks resolvable fs0 gen normalize
      post).finalFailed = rcFinalFailed failedBlocks resolvable post := rfl
  have hfs : (recheck_main failedBlocks resolvable fs0 gen normalize
      post).fsFinal = rcFs2 failedBlocks resolvable fs0 gen normalize post :=
    rfl
  have hbak : (recheck_main failedBlocks resolvable fs0 gen normalize
      post).bak = rcCache failedBlocks resolvable fs0 := rfl
  have hres : (recheck_main failedBlocks resolvable fs0 gen normalize
      post).restored = (rcFinalFailed failedBlocks resolvable post).filter
        (fun i => (rcRestoredSrc failedBlocks resolvable fs0 i).isSome) := rfl
  refine ⟨?_, ?_, ?_, ?_⟩
  · intro i hi
    rw [hff] at hi
    rw [hfs, rcFs2_eq_fs0_of_finalFailed hi]
  · intro i s hi hb
    rw [hff] at hi
    rw [hbak] at hb
    have h0 : fs0 i = some s := by
      by_cases hiF : i ∈ rcToFix failedBlocks resolvable
      · rwa [rcCache, if_pos hiF] at hb
      · rw [rcCache, if_neg hiF] at hb
        exact Option.noConfusion hb
    rw [hfs, rcFs2_eq_fs0_of_finalFailed hi, h0]
  · intro i hi
    rw [hres] at hi
    have h1 := (List.mem_filter.mp hi).1
    refine ⟨hff ▸ h1, ?_⟩
    have h2 := (List.mem_filter.mp h1).2
    simpa using h2
  · intro i hp hi
    rw [hres] at hi
    have h2 := (List.mem_filter.mp ((List.mem_filter.mp hi).1)).2
    simp [hp] at h2

/-- Witness for C1 on a one-artifact run whose regeneration fails to
repair it. -/
theorem claim_C1_witness :
    (recheck_main [("b" : String).data] (fun _ => true)
      (fun _ => some ("orig" : String).data) (fun _ => none) false
      (fun _ => false)).fsFinal ("b" : String).data =
      some ("orig" : String).data :=
  (claim_C1_rollback_guarantee [("b" : String).data] (fun _ => true)
    (fun _ => some ("orig" : String).data) (fun _ => none) false
    (fun _ => false)).1 ("b" : String).data (by decide)

/-- C2: a regeneration write happens only for artifacts of the to-fix
list whose content was readable, and for every such write the backup
map and the backup file both already hold exactly the pre-regeneration
content; every readable artifact passed to regeneration is backed up,
and nothing outside the to-fix list is ever regenerated. -/
theorem claim_C2_backup_before_write :
    ∀ (failedBlocks : List Str) (resolvable : Str → Bool)
      (fs0 gen : Str → Option Str) (normalize : Bool) (post : Str → Bool),
      (∀ i w, (recheck_main failedBlocks resolvable fs0 gen normalize
          post).regenWrote i = some w →
        ∃ s, fs0 i = some s ∧
          (recheck_main failedBlocks resolvable fs0 gen normalize
            post).cache i = some s ∧
          (recheck_main failedBlocks resolvable fs0 gen normalize
            post).bak i = some s) ∧
      (∀ i, i ∈ (recheck_main failedBlocks resolvable fs0 gen normalize
          post).toFix →
        (recheck_main failedBlocks resolvable fs0 gen normalize
          post).cache i = fs0 i ∧
        (recheck_main failedBlocks resolvable fs0 gen normalize
          post).bak i = fs0 i) ∧
      (∀ i, i ∉ (recheck_main failedBlocks resolvable fs0 gen normalize
          post).toFix →
        (recheck_main failedBlocks resolvable fs0 gen normalize
          post).regenWrote i = none) := by
  intro failedBlocks resolvable fs0 gen normalize post
  have htf : (recheck_main failedBlocks resolvable fs0 gen normalize
      post).toFix = rcToFix failedBlocks resolvable := rfl
  have hc : (recheck_main failedBlocks resolvable fs0 gen normalize
      post).cache = rcCache failedBlocks resolvable fs0 := rfl
  have hbak : (recheck_main failedBlocks resolvable fs0 gen normalize
      post).bak = rcCache failedBlocks resolvable fs0 := rfl
  have hrw : (recheck_main failedBlocks resolvable fs0 gen normalize
      post).regenWrote = rcRegen failedBlocks resolvable fs0 gen normalize :=
    rfl
  refine ⟨?_, ?_, ?_⟩
  · intro i w hw
    rw [hrw] at hw
    by_cases hiF : i ∈ rcToFix failedBlocks resolvable
    · rw [rcRegen, if_pos hiF] at hw
      cases h0 : fs0 i with
      | none =>
        rw [h0, regenerate_src_none] at hw
        exact Option.noConfusion hw
      | some s =>
        exact ⟨s, rfl, by rw [hc, rcCache, if_pos hiF, h0],
          by rw [hbak, rcCache, if_pos hiF, h0]⟩
    · rw [rcRegen, if_neg hiF] at hw
      exact Option.noConfusion hw
  · intro i hiF
    rw [htf] at hiF
    exact ⟨by rw [hc, rcCache, if_pos hiF],
      by rw [hbak, rcCache, if_pos hiF]⟩
  · intro i hiF
    rw [htf] at hiF
    rw [hrw, rcRegen, if_neg hiF]

/-- Witness for C2: a concrete regenerated artifact has its original
content in both backups. -/
theorem claim_C2_witness :
    ∃ s, (fun _ : Str => some ("orig" : String).data)
        (("b" : String).data) = some s ∧
      (recheck_main [("b" : String).data] (fun _ => true)
        (fun _ => some ("orig" : String).data) (fun _ => none) false
        (fun _ => false)).cache ("b" : String).data = some s ∧
      (recheck_main [("b" : String).data] (fun _ => true)
        (fun _ => some ("orig" : String).data) (fun _ => none) false
        (fun _ => false)).bak ("b" : String).data = some s :=
  (claim_C2_backup_before_write [("b" : String).data] (fun _ => true)
    (fun _ => some ("orig" : String).data) (fun _ => none) false
    (fun _ => false)).1 ("b" : String).data
    ((regenerate_file (some ("orig" : String).data) none false
      ("b" : String).data).1.get
        (regenerate_some_isSome ("orig" : String).data none false
          ("b" : String).data))
    (by
      have h := regenerate_some_isSome ("orig" : String).data none false
        ("b" : String).data
      have : (recheck_main [("b" : String).data] (fun _ => true)
          (fun _ => some ("orig" : String).data) (fun _ => none) false
          (fun _ => false)).regenWrote ("b" : String).data =
          (regenerate_file (some ("orig" : String).data) none false
            ("b" : String).data).1 := by
        rfl
      rw [this]
      exact (Option.some_get h).symm)

/-- C4 counterexample: an invocation of `regenerate_file` whose source
read fails performs no write at all, leaving the artifact's previous
content in place, refuting the claim that every invocation overwrites
the stored content. -/
theorem claim_C4_counterexample :
    regenerate_file none (some ("x" : String).data) true
      ("B" : String).data = (none, false, some .readErr) := rfl

/-- C4 (amended): every invocation of `regenerate_file` whose source
read succeeds overwrites the stored content and reports success — with
the fence-stripped (and optionally normalized) service text when the
service returned usable content, with the local fallback skeleton when
it did not, and with the trivial always-valid skeleton when no
fallback could be synthesized; it is never a no-op in that case. -/
theorem claim_C4_regeneration_resolves :
    ∀ (s : Str) (g : Option Str) (nz : Bool) (stem : Str),
      ((regenerate_file (some s) g nz stem).1.isSome = true) ∧
      ((regenerate_file (some s) g nz stem).2.1 = true) ∧
      (∀ c, g = some c → (regenerate_file (some s) g nz stem).1 =
        some (if nz then ensure_top_import_mathlib (strip_code_fences c)
          else strip_code_fences c)) ∧
      (g = none → ∀ fb, build_fallback_skeleton s = some fb →
        (regenerate_file (some s) g nz stem).1 =
          some (if nz then ensure_top_import_mathlib fb else fb)) ∧
      (g = none → build_fallback_skeleton s = none →
        (regenerate_file (some s) g nz stem).1 =
          some (minimalSkeleton stem)) := by
  intro s g nz stem
  refine ⟨regenerate_some_isSome s g nz stem, ?_, ?_, ?_, ?_⟩
  · cases g with
    | some c => rfl
    | none =>
      cases h : build_fallback_skeleton s with
      | some fb => simp [regenerate_file, h]
      | none => simp [regenerate_file, h]
  · intro c hg
    subst hg
    rfl
  · intro hg fb hfb
    subst hg
    simp [regenerate_file, hfb]
  · intro hg hfb
    subst hg
    simp [regenerate_file, hfb]

/-- Witness for C4: a concrete invocation whose generation produced
usable text writes the fence-stripped content. -/
theorem claim_C4_witness :
    (regenerate_file (some ("a" : String).data)
      (some ("b" : String).data) false ("S" : String).data).1 =
      some (strip_code_fences ("b" : String).data) :=
  (claim_C4_regeneration_resolves ("a" : String).data
    (some ("b" : String).data) false ("S" : String).data).2.2.1
    ("b" : String).data rfl

/-! ### Claims about the generation-service transient-error policy -/

theorem retryableCode_iff (c : Nat) :
    retryableCode c = true ↔ (c = 429 ∨ (500 ≤ c ∧ c < 600)) := by
  simp [retryableCode]

theorem chatLoop_zero (resp : Nat → ApiResp) (ra : Nat → ℚ) (k : Nat)
    (delay : ℚ) (last : Option ApiResp) :
    chatLoop resp ra 0 k delay last =
      match last with
      | some e => ⟨.gaveUp e, [], [], k⟩
      | none => ⟨.unknownFail, [], [], k⟩ := rfl

theorem chatLoop_succ_ok {resp : Nat → ApiResp} (ra : Nat → ℚ)
    {fuel k : Nat} {delay : ℚ} {last : Option ApiResp} {b : Str}
    (hres : resp k = .ok b) :
    chatLoop resp ra (fuel + 1) k delay last = ⟨.success b, [], [], k + 1⟩ := by
  show (match resp k with
    | ApiResp.ok b => (⟨.success b, [], [], k + 1⟩ : CallTrace)
    | ApiResp.httpErr c b =>
      if retryableCode c then
        let s := max (ra k) delay
        let r := chatLoop resp ra fuel (k + 1) (min (delay * 2) 20)
          (some (.httpErr c b))
        ⟨r.result, delay :: r.backoffs, s :: r.sleeps, r.attemptsUsed⟩
      else ⟨.terminal c b, [], [], k + 1⟩
    | ApiResp.netErr =>
      let r := chatLoop resp ra fuel (k + 1) (min (delay * 2) 20)
        (some .netErr)
      ⟨r.result, delay :: r.backoffs, delay :: r.sleeps, r.attemptsUsed⟩) =
    ⟨.success b, [], [], k + 1⟩
  rw [hres]

theorem chatLoop_succ_http_retry {resp : Nat → ApiResp} (ra : Nat → ℚ)
    {fuel k : Nat} {delay : ℚ} {last : Option ApiResp} {c : Nat} {b : Str}
    (hres : resp k = .httpErr c b) (hret : retryableCode c = true) :
    chatLoop resp ra (fuel + 1) k delay last =
      ⟨(chatLoop resp ra fuel (k + 1) (min (delay * 2) 20)
          (some (.httpErr c b))).result,
        delay :: (chatLoop resp ra fuel (k + 1) (min (delay * 2) 20)
          (some (.httpErr c b))).backoffs,
        max (ra k) delay :: (chatLoop resp ra fuel (k + 1)
          (min (delay * 2) 20) (some (.httpErr c b))).sleeps,
        (chatLoop resp ra fuel (k + 1) (min (delay * 2) 20)
          (some (.httpErr c b))).attemptsUsed⟩ := by
  show (match resp k with
    | ApiResp.ok b => (⟨.success b, [], [], k + 1⟩ : CallTrace)
    | ApiResp.httpErr c b =>
      if retryableCode c then
        let s := max (ra k) delay
        let r := chatLoop resp ra fuel (k + 1) (min (delay * 2) 20)
          (some (.httpErr c b))
        ⟨r.result, delay :: r.backoffs, s :: r.sleeps, r.attemptsUsed⟩
      else ⟨.terminal c b, [], [], k + 1⟩
    | ApiResp.netErr =>
      let r := chatLoop resp ra fuel (k + 1) (min (delay * 2) 20)
        (some .netErr)
      ⟨r.result, delay :: r.backoffs, delay :: r.sleeps, r.attemptsUsed⟩) = _
  rw [hres]
  simp only [if_pos hret]

theorem chatLoop_succ_http_term {resp : Nat → ApiResp} (ra : Nat → ℚ)
    {fuel k : Nat} {delay : ℚ} {last : Option ApiResp} {c : Nat} {b : Str}
    (hres : resp k = .httpErr c b) (hret : retryableCode c = false) :
    chatLoop resp ra (fuel + 1) k delay last =
      ⟨.terminal c b, [], [], k + 1⟩ := by
  show (match resp k with
    | ApiResp.ok b => (⟨.success b, [], [], k + 1⟩ : CallTrace)
    | ApiResp.httpErr c b =>
      if retryableCode c then
        let s := max (ra k) delay
        let r := chatLoop resp ra fuel (k + 1) (min (delay * 2) 20)
          (some (.httpErr c b))
        ⟨r.result, delay :: r.backoffs, s :: r.sleeps, r.attemptsUsed⟩
      else ⟨.terminal c b, [], [], k + 1⟩
    | ApiResp.netErr =>
      let r := chatLoop resp ra fuel (k + 1) (min (delay * 2) 20)
        (some .netErr)
      ⟨r.result, delay :: r.backoffs, delay :: r.sleeps, r.attemptsUsed⟩) = _
  rw [hres]
  simp only [hret, if_neg Bool.false_ne_true]

theorem chatLoop_succ_net {resp : Nat → ApiResp} (ra : Nat → ℚ)
    {fuel k : Nat} {delay : ℚ} {last : Option ApiResp}
    (hres : resp k = .netErr) :
    chatLoop resp ra (fuel + 1) k delay last =
      ⟨(chatLoop resp ra fuel (k + 1) (min (delay * 2) 20)
          (some .netErr)).result,
        delay :: (chatLoop resp ra fuel (k + 1) (min (delay * 2) 20)
          (some .netErr)).backoffs,
        delay :: (chatLoop resp ra fuel (k + 1) (min (delay * 2) 20)
          (some .netErr)).sleeps,
        (chatLoop resp ra fuel (k + 1) (min (delay * 2) 20)
          (some .netErr)).attemptsUsed⟩ := by
  show (match resp k with
    | ApiResp.ok b => (⟨.success b, [], [], k + 1⟩ : CallTrace)
    | ApiResp.httpErr c b =>
      if retryableCode c then
        let s := max (ra k) delay
        let r := chatLoop resp ra fuel (k + 1) (min (delay * 2) 20)
          (some (.httpErr c b))
        ⟨r.result, delay :: r.backoffs, s :: r.sleeps, r.attemptsUsed⟩
      else ⟨.terminal c b, [], [], k + 1⟩
    | ApiResp.netErr =>
      let r := chatLoop resp ra fuel (k + 1) (min (delay * 2) 20)
        (some .netErr)
      ⟨r.result, delay :: r.backoffs, delay :: r.sleeps, r.attemptsUsed⟩) = _
  rw [hres]

theorem chatLoop_bounds (resp : Nat → ApiResp) (ra : Nat → ℚ) :
    ∀ (fuel k : Nat) (delay : ℚ) (last : Option ApiResp),
      1 ≤ delay → delay ≤ 20 →
      (chatLoop resp ra fuel k delay last).attemptsUsed ≤ k + fuel ∧
      (chatLoop resp ra fuel k delay last).backoffs.length ≤ fuel ∧
      (∀ b ∈ (chatLoop resp ra fuel k delay last).backoffs,
        1 ≤ b ∧ b ≤ 20) := by
  intro fuel
  induction fuel with
  | zero =>
    intro k delay last _ _
    cases last with
    | some e => exact ⟨Nat.le_refl _, by simp [chatLoop], by simp [chatLoop]⟩
    | none => exact ⟨Nat.le_refl _, by simp [chatLoop], by simp [chatLoop]⟩
  | succ fuel ih =>
    intro k delay last h1 h20
    have hd1 : (1 : ℚ) ≤ min (delay * 2) 20 := by
      refine le_min (by linarith) (by norm_num)
    have hd20 : min (delay * 2) 20 ≤ 20 := min_le_right _ _
    cases hres : resp k with
    | ok b =>
      rw [chatLoop_succ_ok ra hres]
      exact ⟨by show k + 1 ≤ k + (fuel + 1); omega, by simp, by simp⟩
    | httpErr c b =>
      by_cases hret : retryableCode c
      · have hrec := ih (k + 1) (min (delay * 2) 20)
          (some (.httpErr c b)) hd1 hd20
        rw [chatLoop_succ_http_retry ra hres hret]
        refine ⟨by simpa using Nat.le_trans hrec.1 (by omega), ?_, ?_⟩
        · simpa using hrec.2.1
        · intro x hx
          rcases List.mem_cons.mp hx with h | h
          · exact h ▸ ⟨h1, h20⟩
          · exact hrec.2.2 x h
      · rw [chatLoop_succ_http_term ra hres (by simpa using hret)]
        exact ⟨by show k + 1 ≤ k + (fuel + 1); omega, by simp, by simp⟩
    | netErr =>
      have hrec := ih (k + 1) (min (delay * 2) 20) (some .netErr) hd1 hd20
      rw [chatLoop_succ_net ra hres]
      refine ⟨by simpa using Nat.le_trans hrec.1 (by omega), ?_, ?_⟩
      · simpa using hrec.2.1
      · intro x hx
        rcases List.mem_cons.mp hx with h | h
        · exact h ▸ ⟨h1, h20⟩
        · exact hrec.2.2 x h

theorem chatLoop_exhaust (resp : Nat → ApiResp) (ra : Nat → ℚ) :
    ∀ (fuel k : Nat) (delay : ℚ) (last : Option ApiResp),
      0 < fuel →
      (∀ j, j < fuel → respRetryable (resp (k + j)) = true) →
      (chatLoop resp ra fuel k delay last).result =
        .gaveUp (resp (k + (fuel - 1))) := by
  intro fuel
  induction fuel with
  | zero => intro k delay last h; omega
  | succ fuel ih =>
    intro k delay last _ hall
    have h0 : respRetryable (resp k) = true := by
      simpa using hall 0 (Nat.succ_pos fuel)
    cases hres : resp k with
    | ok b => rw [hres] at h0; exact absurd h0 (by simp [respRetryable])
    | httpErr c b =>
      have hret : retryableCode c = true := by
        rw [hres] at h0; simpa [respRetryable] using h0
      rw [chatLoop_succ_http_retry ra hres hret]
      show (chatLoop resp ra fuel (k + 1) (min (delay * 2) 20)
        (some (.httpErr c b))).result = _
      cases fuel with
      | zero =>
        rw [chatLoop_zero]
        show CallResult.gaveUp (.httpErr c b) = _
        rw [show k + (0 + 1 - 1) = k from by omega, hres]
      | succ fuel' =>
        rw [ih (k + 1) (min (delay * 2) 20) (some (.httpErr c b))
          (Nat.succ_pos fuel')
          (fun j hj => by
            have := hall (j + 1) (by omega)
            rwa [show k + (j + 1) = k + 1 + j from by omega] at this),
          show k + 1 + (fuel' + 1 - 1) = k + (fuel' + 1 + 1 - 1)
            from by omega]
    | netErr =>
      rw [chatLoop_succ_net ra hres]
      show (chatLoop resp ra fuel (k + 1) (min (delay * 2) 20)
        (some .netErr)).result = _
      cases fuel with
      | zero =>
        rw [chatLoop_zero]
        show CallResult.gaveUp .netErr = _
        rw [show k + (0 + 1 - 1) = k from by omega, hres]
      | succ fuel' =>
        rw [ih (k + 1) (min (delay * 2) 20) (some .netErr)
          (Nat.succ_pos fuel')
          (fun j hj => by
            have := hall (j + 1) (by omega)
            rwa [show k + (j + 1) = k + 1 + j from by omega] at this),
          show k + 1 + (fuel' + 1 - 1) = k + (fuel' + 1 + 1 - 1)
            from by omega]

/-- C7: a 429 or 5xx response is retried with exponential backoff — at
most 5 attempts in total, every backoff component between 1 and 20
seconds, the first retry sleeping `max(retry_after, 1)` — and when all
attempts fail with retryable errors the last error is surfaced; any
other HTTP error status raises immediately on the first attempt with
no retry and no sleep. -/
theorem claim_C7_transient_error_policy :
    (∀ c : Nat, retryableCode c = true ↔ (c = 429 ∨ (500 ≤ c ∧ c < 600))) ∧
    (∀ (resp : Nat → ApiResp) (ra : Nat → ℚ) (c : Nat) (b : Str),
      resp 0 = .httpErr c b → retryableCode c = false →
      chat_completion resp ra = ⟨.terminal c b, [], [], 1⟩) ∧
    (∀ (resp : Nat → ApiResp) (ra : Nat → ℚ),
      (chat_completion resp ra).attemptsUsed ≤ 5 ∧
      (chat_completion resp ra).backoffs.length ≤ 5 ∧
      (∀ b ∈ (chat_completion resp ra).backoffs, 1 ≤ b ∧ b ≤ 20)) ∧
    (∀ (resp : Nat → ApiResp) (ra : Nat → ℚ),
      (∀ j, j < 5 → respRetryable (resp j) = true) →
      (chat_completion resp ra).result = .gaveUp (resp 4)) ∧
    (∀ (resp : Nat → ApiResp) (ra : Nat → ℚ) (c : Nat) (b : Str),
      resp 0 = .httpErr c b → retryableCode c = true →
      (chat_completion resp ra).backoffs.headI = 1 ∧
      (chat_completion resp ra).sleeps.headI = max (ra 0) 1 ∧
      (chat_completion resp ra).backoffs ≠ []) := by
  refine ⟨retryableCode_iff, ?_, ?_, ?_, ?_⟩
  · intro resp ra c b hres hret
    rw [chat_completion, show (5 : Nat) = 4 + 1 from rfl,
      chatLoop_succ_http_term ra hres hret]
  · intro resp ra
    have h := chatLoop_bounds resp ra 5 0 1 none (le_refl 1) (by norm_num)
    exact ⟨by simpa using h.1, h.2.1, h.2.2⟩
  · intro resp ra hall
    have h := chatLoop_exhaust resp ra 5 0 1 none (by norm_num)
      (fun j hj => by simpa using hall j hj)
    simpa using h
  · intro resp ra c b hres hret
    rw [chat_completion, show (5 : Nat) = 4 + 1 from rfl,
      chatLoop_succ_http_retry ra hres hret]
    exact ⟨rfl, rfl, by simp⟩

/-- Witness for C7: a server erroring five times in a row with HTTP 500
surfaces the last error after five attempts. -/
theorem claim_C7_witness :
    (chat_completion (fun _ => .httpErr 500 ("oops" : String).data)
      (fun _ => 0)).result =
      .gaveUp ((fun _ : Nat => ApiResp.httpErr 500 ("oops" : String).data) 4) :=
  claim_C7_transient_error_policy.2.2.2.1
    (fun _ => .httpErr 500 ("oops" : String).data) (fun _ => 0)
    (fun _ _ => rfl)

/-! ### Claim C10: the import-normalization invariant -/

/-- C10: `ensure_top_import_mathlib` always yields exactly one line
whose stripped content is `import Mathlib` (deduplicating and inserting
at the top when absent), it is idempotent, and when normalization is
enabled it is applied both to regenerated service content and to the
fallback skeleton before writing. -/
theorem claim_C10_import_normalization :
    (∀ t : Str,
      (pySplitlines (ensure_top_import_mathlib t)).countP isK = 1) ∧
    (∀ t : Str, ensure_top_import_mathlib (ensure_top_import_mathlib t) =
      ensure_top_import_mathlib t) ∧
    (∀ (s c stem : Str),
      (regenerate_file (some s) (some c) true stem).1 =
        some (ensure_top_import_mathlib (strip_code_fences c))) ∧
    (∀ (s stem fb : Str), build_fallback_skeleton s = some fb →
      (regenerate_file (some s) none true stem).1 =
        some (ensure_top_import_mathlib fb)) := by
  refine ⟨ensure_top_one_importK, ensure_top_idem, ?_, ?_⟩
  · intro s c stem
    rfl
  · intro s stem fb hfb
    simp [regenerate_file, hfb]

/-- Witness for C10 at a concrete fallback skeleton. -/
theorem claim_C10_witness :
    (regenerate_file (some ("theorem t : True := trivial" : String).data)
      none true ("S" : String).data).1 =
      some (ensure_top_import_mathlib
        (("import Mathlib\ntheorem t : True := by\n  sorry\n" :
          String).data)) :=
  claim_C10_import_normalization.2.2.2
    ("theorem t : True := trivial" : String).data ("S" : String).data
    (("import Mathlib\ntheorem t : True := by\n  sorry\n" : String).data)
    (by decide)

/-! ### Claim C8: the fallback-skeleton contract -/

/-- Independent characterization of "a theorem/lemma declaration with
an assignment exists": some line is a declaration line and the `:=`
token occurs on it or on a later line. -/
def existsDeclCE : List Str → Bool
  | [] => false
  | l :: ls => (isDeclLine l && (hasCE l || ls.any hasCE)) || existsDeclCE ls

theorem takeSig_eq_none_iff (ds : List Str) :
    takeSig ds = none ↔ ds.any hasCE = false := by
  induction ds with
  | nil => simp [takeSig]
  | cons l ls ih =>
    by_cases h : hasCE l
    · simp [takeSig, h]
    · simp [takeSig, h, ih, Option.map_eq_none']

theorem any_hasCE_of_existsDeclCE {ls : List Str}
    (h : existsDeclCE ls = true) : ls.any hasCE = true := by
  induction ls with
  | nil => simp [existsDeclCE] at h
  | cons l ls ih =>
    rw [existsDeclCE, Bool.or_eq_true, Bool.and_eq_true,
      Bool.or_eq_true] at h
    rcases h with ⟨-, h | h⟩ | h
    · simp [h]
    · simp [h]
    · simp [ih h]

theorem existsDeclCE_iff (ls : List Str) :
    existsDeclCE ls = true ↔
      ∃ d, afterDecl ls = some d ∧ d.any hasCE = true := by
  induction ls with
  | nil => simp [existsDeclCE, afterDecl]
  | cons l ls ih =>
    by_cases hd : isDeclLine l
    · rw [existsDeclCE, afterDecl, if_pos hd]
      constructor
      · intro h
        rw [Bool.or_eq_true, Bool.and_eq_true] at h
        rcases h with ⟨-, h⟩ | h
        · exact ⟨l :: ls, rfl, by simpa using h⟩
        · refine ⟨l :: ls, rfl, ?_⟩
          have := any_hasCE_of_existsDeclCE h
          simp [this]
      · rintro ⟨d, hd2, hany⟩
        injection hd2 with hd2
        subst hd2
        rw [List.any_cons] at hany
        simp [hd, hany]
    · rw [existsDeclCE, afterDecl, if_neg hd]
      simp only [hd, Bool.false_and, Bool.false_or]
      exact ih

theorem bfs_eq_none_iff (src : Str) :
    build_fallback_skeleton src = none ↔
      existsDeclCE (pySplitlines src) = false := by
  rw [build_fallback_skeleton]
  cases hd : afterDecl (pySplitlines src) with
  | none =>
    constructor
    · intro _
      cases he : existsDeclCE (pySplitlines src)
      · rfl
      · obtain ⟨d, hd2, -⟩ := (existsDeclCE_iff _).mp he
        rw [hd] at hd2
        exact Option.noConfusion hd2
    · intro _
      rfl
  | some d =>
    cases ht : takeSig d with
    | none =>
      show (match takeSig d with
        | none => none
        | some sigbuf =>
          some (ensure_top_import_mathlib
            (joinNl (skAssembly (pySplitlines src) sigbuf)))) = none ↔
        existsDeclCE (pySplitlines src) = false
      rw [ht]
      constructor
      · intro _
        cases he : existsDeclCE (pySplitlines src)
        · rfl
        · obtain ⟨d', hd2, hany⟩ := (existsDeclCE_iff _).mp he
          rw [hd] at hd2
          injection hd2 with hd2
          subst hd2
          rw [(takeSig_eq_none_iff d).mp ht] at hany
          exact Bool.noConfusion hany
      · intro _
        rfl
    | some sigbuf =>
      show (match takeSig d with
        | none => none
        | some sigbuf =>
          some (ensure_top_import_mathlib
            (joinNl (skAssembly (pySplitlines src) sigbuf)))) = none ↔
        existsDeclCE (pySplitlines src) = false
      rw [ht]
      constructor
      · intro h
        exact Option.noConfusion h
      · intro he
        have hT : existsDeclCE (pySplitlines src) = true :=
          (existsDeclCE_iff _).mpr ⟨d, hd, by
            cases hany : d.any hasCE
            · rw [(takeSig_eq_none_iff d).mpr hany] at ht
              exact Option.noConfusion ht
            · rfl⟩
        rw [he] at hT
        exact Bool.noConfusion hT

theorem mem_splitOnNl_joinNl_of_nlFree {x : Str} {ls : List Str}
    (hx : x ∈ ls) (hfree : '\n' ∉ x) : x ∈ splitOnNl (joinNl ls) := by
  induction ls with
  | nil => simp at hx
  | cons l ls ih =>
    cases ls with
    | nil =>
      rcases List.mem_cons.mp hx with h | h
      · subst h
        rw [show joinNl [x] = x from rfl, splitOnNl_of_not_mem x hfree]
        exact List.mem_singleton.mpr rfl
      · simp at h
    | cons l2 ls2 =>
      rw [joinNl_cons_of_ne_nil _ (by simp), splitOnNl_append_nl]
      rcases List.mem_cons.mp hx with h | h
      · subst h
        rw [splitOnNl_of_not_mem x hfree]
        exact List.mem_append.mpr (Or.inl (List.mem_singleton.mpr rfl))
      · exact List.mem_append.mpr (Or.inr (ih h))

theorem mem_pySplitlines_of_mem_splitOnNl' {x s : Str}
    (h : x ∈ splitOnNl s) (hx : x ≠ []) : x ∈ pySplitlines s := by
  by_cases hs : s = []
  · subst hs
    rw [show splitOnNl [] = [[]] from rfl] at h
    exact absurd (List.mem_singleton.mp h) hx
  · rw [pySplitlines, if_neg hs]
    by_cases hl : (splitOnNl s).getLast? = some []
    · rw [if_pos hl]
      have hsplit := List.dropLast_append_getLast? _ hl
      rw [← hsplit] at h
      rcases List.mem_append.mp h with h1 | h1
      · exact h1
      · exact absurd (List.mem_singleton.mp h1) hx
    · rwa [if_neg hl]

theorem leadImpOp_fst_mem {lines : List Str} :
    ∀ l ∈ (leadImpOp lines).1,
      l ∈ lines ∧ importSp.isPrefixOf (pyStrip l) = true := by
  induction lines with
  | nil => simp [leadImpOp]
  | cons x xs ih =>
    intro l hl
    by_cases h1 : importSp.isPrefixOf (pyStrip x)
    · rw [leadImpOp, if_pos h1] at hl
      rcases List.mem_cons.mp hl with h | h
      · subst h
        exact ⟨List.mem_cons_self _ _, h1⟩
      · obtain ⟨hm, hp⟩ := ih l h
        exact ⟨List.mem_cons_of_mem _ hm, hp⟩
    · by_cases h2 : openSp.isPrefixOf (pyStrip x)
      · rw [leadImpOp, if_neg h1, if_pos h2] at hl
        obtain ⟨hm, hp⟩ := ih l hl
        exact ⟨List.mem_cons_of_mem _ hm, hp⟩
      · rw [leadImpOp, if_neg h1, if_neg h2] at hl
        simp at hl

theorem leadImpOp_snd_mem {lines : List Str} :
    ∀ l ∈ (leadImpOp lines).2,
      l ∈ lines ∧ openSp.isPrefixOf (pyStrip l) = true := by
  induction lines with
  | nil => simp [leadImpOp]
  | cons x xs ih =>
    intro l hl
    by_cases h1 : importSp.isPrefixOf (pyStrip x)
    · rw [leadImpOp, if_pos h1] at hl
      obtain ⟨hm, hp⟩ := ih l hl
      exact ⟨List.mem_cons_of_mem _ hm, hp⟩
    · by_cases h2 : openSp.isPrefixOf (pyStrip x)
      · rw [leadImpOp, if_neg h1, if_pos h2] at hl
        rcases List.mem_cons.mp hl with h | h
        · subst h
          exact ⟨List.mem_cons_self _ _, h2⟩
        · obtain ⟨hm, hp⟩ := ih l h
          exact ⟨List.mem_cons_of_mem _ hm, hp⟩
      · rw [leadImpOp, if_neg h1, if_neg h2] at hl
        simp at hl

theorem pyStrip_ne_nil_of_importSp {l : Str}
    (h : importSp.isPrefixOf (pyStrip l) = true) : pyStrip l ≠ [] := by
  intro hnil
  rw [hnil] at h
  exact absurd h (by decide)

theorem pyStrip_ne_nil_of_openSp {l : Str}
    (h : openSp.isPrefixOf (pyStrip l) = true) : pyStrip l ≠ [] := by
  intro hnil
  rw [hnil] at h
  exact absurd h (by decide)

/-- A stripped line is always in the stripped image of the lines of the
normalized output, provided it is a line of the input and nonblank. -/
theorem pyStrip_mem_output_of_line {t l : Str}
    (hmem : l ∈ pySplitlines t) (hne : pyStrip l ≠ []) :
    pyStrip l ∈ (pySplitlines (ensure_top_import_mathlib t)).map pyStrip := by
  by_cases hK : isK l
  · have h1 := ensure_top_one_importK t
    have h2 : 0 < (pySplitlines (ensure_top_import_mathlib t)).countP isK :=
      by omega
    obtain ⟨x, hx, hxK⟩ := List.countP_pos_iff.mp h2
    refine List.mem_map.mpr ⟨x, hx, ?_⟩
    rw [(isK_iff x).mp hxK, (isK_iff l).mp hK]
  · have hfin : l ∈ ensureFin t := by
      rw [ensureFin]
      by_cases hseen : (cleanDedup (pySplitlines t) false).2
      · rw [if_pos hseen]
        exact mem_cleanDedup_of_not_isK hmem (by simpa using hK) false
      · rw [if_neg hseen]
        exact List.mem_cons_of_mem _
          (mem_cleanDedup_of_not_isK hmem (by simpa using hK) false)
    have h2 : pyStrip l ∈ ((splitOnNl (joinNl (ensureFin t))).map pyStrip) := by
      rw [splitOnNl_joinNl (ensureFin_ne_nil t) (ensureFin_nl_free t)]
      exact List.mem_map_of_mem pyStrip hfin
    have h3 := mem_map_pyStrip_pyStrip hne h2
    rwa [pySplitlines_ensure_top]

/-- The placeholder-proof line that ends every fallback skeleton. -/
def sorryLine : Str := "  sorry".data

theorem joinNl_append_singleton {ls : List Str} (hne : ls ≠ []) (y : Str) :
    joinNl (ls ++ [y]) = joinNl ls ++ '\n' :: y := by
  induction ls with
  | nil => exact absurd rfl hne
  | cons l ls ih =>
    cases ls with
    | nil => rfl
    | cons l2 ls2 =>
      rw [List.cons_append, joinNl_cons_of_ne_nil _ (by simp),
        joinNl_cons_of_ne_nil _ (by simp), ih (by simp)]
      simp

theorem getLast?_cons_of_ne_nil {a : Str} {t : List Str} (h : t ≠ []) :
    (a :: t).getLast? = t.getLast? := by
  cases t with
  | nil => exact absurd rfl h
  | cons b t => exact List.getLast?_cons_cons

theorem cleanDedup_cons (l : Str) (ls : List Str) (b : Bool) :
    cleanDedup (l :: ls) b =
      if isK l then
        ((if b then (cleanDedup ls true).1 else l :: (cleanDedup ls true).1),
          (cleanDedup ls true).2)
      else (l :: (cleanDedup ls b).1, (cleanDedup ls b).2) := rfl

theorem cleanDedup_getLast? {x : Str} (hx : isK x = false) :
    ∀ (ls : List Str) (b : Bool), ls.getLast? = some x →
      ((cleanDedup ls b).1).getLast? = some x := by
  intro ls
  induction ls with
  | nil => intro b h; exact Option.noConfusion h
  | cons l ls ih =>
    intro b h
    cases ls with
    | nil =>
      have hxl : x = l := by
        have : (l :: ([] : List Str)).getLast? = some l := rfl
        rw [this] at h
        exact (Option.some_inj.mp h).symm
      subst hxl
      rw [show cleanDedup [x] b = (if isK x then
        (if b then ([] : List Str) else [x], true) else ([x], b))
        from by simp [cleanDedup], hx]
      rfl
    | cons l2 ls2 =>
      have hlast : (l2 :: ls2).getLast? = some x := by
        rwa [getLast?_cons_of_ne_nil (by simp)] at h
      have hne2 : ∀ b', ((cleanDedup (l2 :: ls2) b').1) ≠ [] := by
        intro b' hc
        have hl2 := ih b' hlast
        rw [hc] at hl2
        exact Option.noConfusion hl2
      rw [cleanDedup_cons]
      by_cases hl : isK l
      · rw [if_pos hl]
        cases b with
        | true => simpa using ih true hlast
        | false =>
          show (l :: (cleanDedup (l2 :: ls2) true).1).getLast? = some x
          rw [getLast?_cons_of_ne_nil (hne2 true)]
          exact ih true hlast
      · rw [if_neg hl]
        show (l :: (cleanDedup (l2 :: ls2) b).1).getLast? = some x
        rw [getLast?_cons_of_ne_nil (hne2 b)]
        exact ih b hlast

theorem ensureFin_getLast? {t : Str} {x : Str} (hx : isK x = false)
    (h : (pySplitlines t).getLast? = some x) :
    (ensureFin t).getLast? = some x := by
  rw [ensureFin]
  have hded := cleanDedup_getLast? hx (pySplitlines t) false h
  by_cases hseen : (cleanDedup (pySplitlines t) false).2
  · rw [if_pos hseen]
    exact hded
  · rw [if_neg hseen]
    have hne : (cleanDedup (pySplitlines t) false).1 ≠ [] := by
      intro hc
      rw [hc] at hded
      exact Option.noConfusion hded
    rw [getLast?_cons_of_ne_nil hne]
    exact hded

theorem mem_joinNl {c : Char} {x : Str} {ls : List Str}
    (hc : c ∈ x) (hx : x ∈ ls) : c ∈ joinNl ls := by
  induction ls with
  | nil => simp at hx
  | cons l ls ih =>
    cases ls with
    | nil =>
      have hxl : x = l := List.mem_singleton.mp hx
      subst hxl
      exact hc
    | cons l2 ls2 =>
      rw [joinNl_cons_of_ne_nil _ (by simp)]
      rcases List.mem_cons.mp hx with h | h
      · subst h
        exact List.mem_append.mpr (Or.inl hc)
      · exact List.mem_append.mpr (Or.inr (List.mem_cons_of_mem _ (ih h)))

theorem exists_not_ws_of_pyStrip_ne_nil {x : Str} (h : pyStrip x ≠ []) :
    ∃ c ∈ x, isWS c = false := by
  by_contra hall
  push_neg at hall
  exact h ((pyStrip_eq_nil_iff x).mpr fun c hc => by
    have := hall c hc
    simpa using this)

theorem pySplitlines_append_placeholder (A : Str) :
    (pySplitlines (A ++ '\n' :: ("  sorry\n" : String).data)).getLast? =
      some sorryLine := by
  have h1 : splitOnNl (A ++ '\n' :: ("  sorry\n" : String).data) =
      splitOnNl A ++ [sorryLine, []] := by
    rw [splitOnNl_append_nl]
    congr 1
  rw [pySplitlines, if_neg (by simp), h1]
  have h2 : (splitOnNl A ++ [sorryLine, []]).getLast? = some [] := by
    rw [List.getLast?_append]
    rfl
  rw [if_pos h2,
    show splitOnNl A ++ [sorryLine, []] =
      (splitOnNl A ++ [sorryLine]) ++ [[]] from by simp,
    List.dropLast_concat, List.getLast?_concat]

theorem joinNl_sk_last (F : List Str) (sig : Str) :
    (pySplitlines (joinNl (F ++ [sig ++ skTail]))).getLast? =
      some sorryLine := by
  have hskt : sig ++ skTail =
      (sig ++ (" := by" : String).data) ++
        '\n' :: ("  sorry\n" : String).data := by
    rw [List.append_assoc]
    rfl
  cases F with
  | nil =>
    rw [show joinNl ([] ++ [sig ++ skTail]) = sig ++ skTail from rfl, hskt]
    exact pySplitlines_append_placeholder _
  | cons f fs =>
    rw [joinNl_append_singleton (by simp) _, hskt]
    have hre : joinNl (f :: fs) ++
        '\n' :: ((sig ++ (" := by" : String).data) ++
          '\n' :: ("  sorry\n" : String).data) =
        (joinNl (f :: fs) ++
          '\n' :: (sig ++ (" := by" : String).data)) ++
          '\n' :: ("  sorry\n" : String).data := by
      simp
    rw [hre]
    exact pySplitlines_append_placeholder _

theorem skAssembly_last_line (lines sigbuf : List Str) :
    (pySplitlines (joinNl (skAssembly lines sigbuf))).getLast? =
      some sorryLine := by
  have hsk : skAssembly lines sigbuf =
      ((if (leadImpOp lines).1 = [] then []
          else (leadImpOp lines).1 ++ [[]]) ++
        ((if (leadImpOp lines).2 = [] then []
          else (leadImpOp lines).2 ++ [[]]) ++
        (match findDoc lines with | some d => [d] | none => []))) ++
      [sigLeftOf sigbuf ++ skTail] := by
    rw [skAssembly]
    simp
  rw [hsk]
  exact joinNl_sk_last _ _

theorem ensure_top_last_placeholder {t : Str}
    (h : (pySplitlines t).getLast? = some sorryLine) :
    (pySplitlines (ensure_top_import_mathlib t)).getLast? =
      some sorryLine := by
  have hxK : isK sorryLine = false := by decide
  have hfin : (ensureFin t).getLast? = some sorryLine :=
    ensureFin_getLast? hxK h
  have hsplit := List.dropLast_append_getLast? _ hfin
  have hcnt := ensureFin_countP t
  obtain ⟨k, hk, hkK⟩ : ∃ k ∈ ensureFin t, isK k := by
    have : 0 < (ensureFin t).countP isK := by omega
    exact List.countP_pos_iff.mp this
  have hkd : k ∈ (ensureFin t).dropLast := by
    rw [← hsplit] at hk
    rcases List.mem_append.mp hk with h1 | h1
    · exact h1
    · rw [List.mem_singleton.mp h1] at hkK
      exact absurd hkK (by rw [hxK]; exact Bool.noConfusion)
  have hdne : (ensureFin t).dropLast ≠ [] := List.ne_nil_of_mem hkd
  have hjoin : joinNl (ensureFin t) =
      joinNl ((ensureFin t).dropLast) ++ '\n' :: sorryLine := by
    conv_lhs => rw [← hsplit]
    exact joinNl_append_singleton hdne _
  obtain ⟨c, hc, hcw⟩ : ∃ c ∈ k, isWS c = false := by
    apply exists_not_ws_of_pyStrip_ne_nil
    rw [(isK_iff k).mp hkK]
    decide
  have hnw : ∃ c ∈ joinNl ((ensureFin t).dropLast), isWS c = false :=
    ⟨c, mem_joinNl hc hkd, hcw⟩
  have htrimL : trimL (joinNl ((ensureFin t).dropLast)) ≠ [] := by
    intro hnil
    obtain ⟨c', hc', hcw'⟩ := hnw
    have := (trimL_eq_nil_iff _).mp hnil c' hc'
    rw [hcw'] at this
    exact Bool.noConfusion this
  have htrimR : trimR (joinNl (ensureFin t)) = joinNl (ensureFin t) := by
    rw [hjoin, show ('\n' :: sorryLine : Str) =
      ('\n' :: ("  sorr" : String).data) ++ ['y'] from by decide,
      ← List.append_assoc]
    rw [trimR_concat_of_not_ws (by decide)]
  have hcore : pyStrip (joinNl (ensureFin t)) =
      trimL (joinNl ((ensureFin t).dropLast)) ++ '\n' :: sorryLine := by
    rw [pyStrip, htrimR, hjoin, trimL_append, if_neg htrimL]
  rw [pySplitlines_ensure_top, hcore, splitOnNl_append_nl,
    show splitOnNl sorryLine = [sorryLine] from by decide,
    List.getLast?_append]
  rfl

theorem bfs_some_shape {src out : Str}
    (h : build_fallback_skeleton src = some out) :
    ∃ sigbuf, firstSigbuf (pySplitlines src) = some sigbuf ∧
      out = ensure_top_import_mathlib
        (joinNl (skAssembly (pySplitlines src) sigbuf)) := by
  rw [build_fallback_skeleton] at h
  cases hd : afterDecl (pySplitlines src) with
  | none =>
    rw [hd] at h
    exact Option.noConfusion h
  | some d =>
    rw [hd] at h
    have h' : (match takeSig d with
      | none => none
      | some sigbuf => some (ensure_top_import_mathlib
          (joinNl (skAssembly (pySplitlines src) sigbuf)))) = some out := h
    cases ht : takeSig d with
    | none =>
      rw [ht] at h'
      exact Option.noConfusion h'
    | some sigbuf =>
      rw [ht] at h'
      have hfs : firstSigbuf (pySplitlines src) = some sigbuf := by
        rw [firstSigbuf, hd]
        exact ht
      exact ⟨sigbuf, hfs, (Option.some_inj.mp h').symm⟩

theorem cleanDedup_append (xs ys : List Str) (b : Bool) :
    cleanDedup (xs ++ ys) b =
      ((cleanDedup xs b).1 ++ (cleanDedup ys (cleanDedup xs b).2).1,
        (cleanDedup ys (cleanDedup xs b).2).2) := by
  induction xs generalizing b with
  | nil => simp [cleanDedup]
  | cons l xs ih =>
    rw [List.cons_append, cleanDedup_cons, cleanDedup_cons]
    by_cases hl : isK l
    · rw [if_pos hl, if_pos hl, ih true]
      cases b <;> simp
    · rw [if_neg hl, if_neg hl, ih b]
      simp

theorem joinNl_append {ls1 ls2 : List Str} (h1 : ls1 ≠ []) (h2 : ls2 ≠ []) :
    joinNl (ls1 ++ ls2) = joinNl ls1 ++ '\n' :: joinNl ls2 := by
  induction ls1 with
  | nil => exact absurd rfl h1
  | cons x xs ih =>
    cases xs with
    | nil =>
      rw [List.singleton_append, joinNl_cons_of_ne_nil _ h2]
      rfl
    | cons x2 xs2 =>
      rw [List.cons_append, joinNl_cons_of_ne_nil _ (by simp),
        joinNl_cons_of_ne_nil _ (by simp), ih (by simp)]
      simp

theorem pySplitlines_concat_tail (A : Str) :
    pySplitlines (A ++ '\n' :: ("  sorry\n" : String).data) =
      splitOnNl A ++ [sorryLine] := by
  have h1 : splitOnNl (A ++ '\n' :: ("  sorry\n" : String).data) =
      splitOnNl A ++ [sorryLine, []] := by
    rw [splitOnNl_append_nl]
    congr 1
  rw [pySplitlines, if_neg (by simp), h1]
  have h2 : (splitOnNl A ++ [sorryLine, []]).getLast? = some [] := by
    rw [List.getLast?_append]
    rfl
  rw [if_pos h2,
    show splitOnNl A ++ [sorryLine, []] =
      (splitOnNl A ++ [sorryLine]) ++ [[]] from by simp,
    List.dropLast_concat]

theorem trimR_eq_self_of_last_nonws {l : Str} {c : Char}
    (h : l.getLast? = some c) (hc : isWS c = false) : trimR l = l := by
  have hsplit := List.dropLast_append_getLast? _ h
  conv_lhs => rw [← hsplit]
  rw [trimR_concat_of_not_ws (by simp [hc])]
  exact hsplit

/-- The skeleton assembly's line list always breaks into a (possibly
empty) prefix followed by the lines of the kept signature text with the
assignment opener, then the placeholder line. -/
theorem skAssembly_lines_decomp (lines sigbuf : List Str) :
    ∃ P, pySplitlines (joinNl (skAssembly lines sigbuf)) =
      P ++ (splitOnNl (sigLeftOf sigbuf ++ (" := by" : String).data) ++
        [sorryLine]) := by
  have hskt : sigLeftOf sigbuf ++ skTail =
      (sigLeftOf sigbuf ++ (" := by" : String).data) ++
        '\n' :: ("  sorry\n" : String).data := by
    rw [List.append_assoc]
    rfl
  have hsk : skAssembly lines sigbuf =
      ((if (leadImpOp lines).1 = [] then []
          else (leadImpOp lines).1 ++ [[]]) ++
        ((if (leadImpOp lines).2 = [] then []
          else (leadImpOp lines).2 ++ [[]]) ++
        (match findDoc lines with | some d => [d] | none => []))) ++
      [sigLeftOf sigbuf ++ skTail] := by
    rw [skAssembly]
    simp
  rw [hsk]
  cases hF : ((if (leadImpOp lines).1 = [] then []
      else (leadImpOp lines).1 ++ [[]]) ++
    ((if (leadImpOp lines).2 = [] then []
      else (leadImpOp lines).2 ++ [[]]) ++
    (match findDoc lines with | some d => [d] | none => []))) with
  | nil =>
    refine ⟨[], ?_⟩
    rw [show joinNl ([] ++ [sigLeftOf sigbuf ++ skTail]) =
        sigLeftOf sigbuf ++ skTail from rfl, hskt,
      pySplitlines_concat_tail, List.nil_append]
  | cons f fs =>
    refine ⟨splitOnNl (joinNl (f :: fs)), ?_⟩
    rw [joinNl_append_singleton (by simp) _, hskt]
    have hre : joinNl (f :: fs) ++
        '\n' :: ((sigLeftOf sigbuf ++ (" := by" : String).data) ++
          '\n' :: ("  sorry\n" : String).data) =
        (joinNl (f :: fs) ++
          '\n' :: (sigLeftOf sigbuf ++ (" := by" : String).data)) ++
          '\n' :: ("  sorry\n" : String).data := by
      simp
    rw [hre, pySplitlines_concat_tail, splitOnNl_append_nl,
      List.append_assoc]

/-- When none of the lines of the kept signature text strips to
`import Mathlib`, the normalized skeleton text literally ends with a
newline, the kept signature text and the placeholder tail. -/
theorem ensure_top_sig_suffix {t sig : Str}
    (hP : ∃ P, pySplitlines t =
      P ++ (splitOnNl (sig ++ (" := by" : String).data) ++ [sorryLine]))
    (hK : ∀ l ∈ splitOnNl (sig ++ (" := by" : String).data),
      isK l = false) :
    ∃ a, ensure_top_import_mathlib t = a ++ '\n' :: (sig ++ skTail) := by
  obtain ⟨P, hPl⟩ := hP
  have hT : ∀ l ∈ splitOnNl (sig ++ (" := by" : String).data) ++
      [sorryLine], isK l = false := by
    intro l hl
    rcases List.mem_append.mp hl with h | h
    · exact hK l h
    · rw [List.mem_singleton.mp h]
      decide
  have hTz : (splitOnNl (sig ++ (" := by" : String).data) ++
      [sorryLine]).countP isK = 0 :=
    List.countP_eq_zero.mpr fun a ha => by simp [hT a ha]
  have hcd : cleanDedup (pySplitlines t) false =
      ((cleanDedup P false).1 ++
        (splitOnNl (sig ++ (" := by" : String).data) ++ [sorryLine]),
        (cleanDedup P false).2) := by
    rw [hPl, cleanDedup_append, cleanDedup_of_countP_zero hTz]
  have efin : ensureFin t =
      (if (cleanDedup (pySplitlines t) false).2 then
        (cleanDedup (pySplitlines t) false).1
      else importMathlibK :: (cleanDedup (pySplitlines t) false).1) := rfl
  obtain ⟨F2, hfin, k, hk, hkK⟩ : ∃ F2, ensureFin t =
      F2 ++ (splitOnNl (sig ++ (" := by" : String).data) ++ [sorryLine]) ∧
      ∃ k ∈ F2, isK k = true := by
    by_cases hseen : (cleanDedup (pySplitlines t) false).2
    · refine ⟨(cleanDedup P false).1, by rw [efin, if_pos hseen, hcd], ?_⟩
      have hany : P.any isK = true := by
        have h1 := cleanDedup_seen (pySplitlines t) false
        rw [hseen, hPl, List.any_append, List.any_append] at h1
        have h2 : (splitOnNl
            (sig ++ (" := by" : String).data)).any isK = false := by
          rw [List.any_eq_false]
          intro x hx
          simp [hT x (List.mem_append.mpr (Or.inl hx))]
        have h3 : ([sorryLine] : List Str).any isK = false := by decide
        rw [h2, h3] at h1
        simpa using h1.symm
      have hpos : 0 < ((cleanDedup P false).1).countP isK := by
        rw [cleanDedup_countP_false, if_pos hany]
        omega
      obtain ⟨k, hk, hkK⟩ := List.countP_pos_iff.mp hpos
      exact ⟨k, hk, hkK⟩
    · refine ⟨importMathlibK :: (cleanDedup P false).1, ?_,
        importMathlibK, List.mem_cons_self _ _, by decide⟩
      rw [efin, if_neg hseen, hcd, List.cons_append]
  have hSne : splitOnNl (sig ++ (" := by" : String).data) ≠ [] :=
    splitOnNl_ne_nil _
  have hF2ne : F2 ≠ [] := List.ne_nil_of_mem hk
  have hjoin : joinNl (ensureFin t) = joinNl F2 ++
      '\n' :: ((sig ++ (" := by" : String).data) ++ '\n' :: sorryLine) := by
    rw [hfin, joinNl_append hF2ne (by simp [hSne]),
      joinNl_append_singleton hSne, joinNl_splitOnNl]
  have htail : (('\n' :: ((sig ++ (" := by" : String).data) ++
      '\n' :: sorryLine)) : Str).getLast? = some 'y' := by
    rw [show ('\n' :: ((sig ++ (" := by" : String).data) ++
        '\n' :: sorryLine) : Str) =
      ('\n' :: (sig ++ (" := by" : String).data)) ++ '\n' :: sorryLine
      from by simp, List.getLast?_append,
      show (('\n' :: sorryLine : Str)).getLast? = some 'y' from by decide]
    rfl
  have hlastc : (joinNl (ensureFin t)).getLast? = some 'y' := by
    rw [hjoin, List.getLast?_append, htail]
    rfl
  have htR : trimR (joinNl (ensureFin t)) = joinNl (ensureFin t) :=
    trimR_eq_self_of_last_nonws hlastc (by decide)
  obtain ⟨c, hc, hcw⟩ : ∃ c ∈ k, isWS c = false := by
    apply exists_not_ws_of_pyStrip_ne_nil
    rw [(isK_iff k).mp hkK]
    decide
  have htrimL : trimL (joinNl F2) ≠ [] := by
    intro hnil
    have := (trimL_eq_nil_iff _).mp hnil c (mem_joinNl hc hk)
    rw [hcw] at this
    exact Bool.noConfusion this
  have hcore : pyStrip (joinNl (ensureFin t)) = trimL (joinNl F2) ++
      '\n' :: ((sig ++ (" := by" : String).data) ++ '\n' :: sorryLine) := by
    rw [pyStrip, htR, hjoin, trimL_append, if_neg htrimL]
  refine ⟨trimL (joinNl F2), ?_⟩
  rw [ensure_top_import_mathlib, hcore]
  have hfold : (((sig ++ (" := by" : String).data) ++
      '\n' :: sorryLine) : Str) ++ ['\n'] = sig ++ skTail := by
    rw [show skTail = (" := by" : String).data ++
      '\n' :: (sorryLine ++ ['\n']) from by decide]
    simp
  rw [List.append_assoc,
    show (('\n' :: ((sig ++ (" := by" : String).data) ++
        '\n' :: sorryLine) : Str)) ++ ['\n'] =
      '\n' :: (((sig ++ (" := by" : String).data) ++
        '\n' :: sorryLine) ++ ['\n']) from rfl, hfold]

/-- C8 counterexample: on an input whose first line is a `namespace`
line, the synthesized skeleton contains neither that namespace line nor
the following `open` line (the leading scan stops at the namespace
line), refuting the claim that leading import/open/namespace lines are
preserved. -/
theorem claim_C8_counterexample :
    build_fallback_skeleton
      ("namespace Foo\nopen Nat\ntheorem a : True := trivial" :
        String).data =
      some (("import Mathlib\ntheorem a : True := by\n  sorry\n" :
        String).data) ∧
    ("namespace Foo" : String).data ∉
      pySplitlines (("import Mathlib\ntheorem a : True := by\n  sorry\n" :
        String).data) ∧
    ("open Nat" : String).data ∉
      pySplitlines (("import Mathlib\ntheorem a : True := by\n  sorry\n" :
        String).data) :=
  ⟨by decide, by decide, by decide⟩

/-- C8 (amended): the fallback synthesis is a pure text transform that
returns none exactly when the input has no theorem/lemma declaration
line with an assignment token at or after it; when it returns a
skeleton, every leading import or open line is present among the
skeleton's lines up to whitespace stripping, the skeleton has exactly
one `import Mathlib` line, its last line is the trivial placeholder
proof, and the first documented declaration's signature is preserved:
for the signature block of the first theorem/lemma declaration with an
assignment, every nonblank line of the kept signature text (everything
before the first assignment token, right-stripped, reopened with the
by-block opener) is present among the skeleton's lines up to
whitespace stripping, and whenever no line of that signature text is
itself an `import Mathlib` line the skeleton literally ends with a
newline, the kept signature text and the placeholder body
`" := by\n  sorry\n"`.  Leading namespace lines are not preserved. -/
theorem claim_C8_fallback_contract :
    ∀ src : Str,
      (build_fallback_skeleton src = none ↔
        existsDeclCE (pySplitlines src) = false) ∧
      (∀ out, build_fallback_skeleton src = some out →
        (∀ l, l ∈ (leadImpOp (pySplitlines src)).1 ∨
            l ∈ (leadImpOp (pySplitlines src)).2 →
          pyStrip l ∈ (pySplitlines out).map pyStrip) ∧
        (pySplitlines out).countP isK = 1 ∧
        (pySplitlines out).getLast? = some sorryLine ∧
        (∀ sigbuf, firstSigbuf (pySplitlines src) = some sigbuf →
          (∀ l, l ∈ splitOnNl (sigLeftOf sigbuf ++
              (" := by" : String).data) →
            pyStrip l ≠ [] →
            pyStrip l ∈ (pySplitlines out).map pyStrip) ∧
          ((∀ l ∈ splitOnNl (sigLeftOf sigbuf ++
              (" := by" : String).data), isK l = false) →
            ∃ a, out = a ++ '\n' :: (sigLeftOf sigbuf ++ skTail)))) := by
  intro src
  refine ⟨bfs_eq_none_iff src, ?_⟩
  intro out hout
  obtain ⟨sigbuf, hfs, hshape⟩ := bfs_some_shape hout
  subst hshape
  refine ⟨?_, ensure_top_one_importK _,
    ensure_top_last_placeholder (skAssembly_last_line _ _), ?_⟩
  · intro l hl
    have hprops : l ∈ pySplitlines src ∧ pyStrip l ≠ [] := by
      rcases hl with h | h
      · obtain ⟨hm, hp⟩ := leadImpOp_fst_mem l h
        exact ⟨hm, pyStrip_ne_nil_of_importSp hp⟩
      · obtain ⟨hm, hp⟩ := leadImpOp_snd_mem l h
        exact ⟨hm, pyStrip_ne_nil_of_openSp hp⟩
    have hassem : l ∈ skAssembly (pySplitlines src) sigbuf := by
      rw [skAssembly]
      refine List.mem_append.mpr (Or.inl (List.mem_append.mpr (Or.inl ?_)))
      rcases hl with h | h
      · refine List.mem_append.mpr (Or.inl ?_)
        rw [if_neg (List.ne_nil_of_mem h)]
        exact List.mem_append.mpr (Or.inl h)
      · refine List.mem_append.mpr (Or.inr ?_)
        rw [if_neg (List.ne_nil_of_mem h)]
        exact List.mem_append.mpr (Or.inl h)
    have hfree : '\n' ∉ l :=
      not_nl_mem_of_mem_splitOnNl
        (mem_splitOnNl_of_mem_pySplitlines hprops.1)
    have h1 : l ∈ splitOnNl (joinNl (skAssembly (pySplitlines src) sigbuf))
      := mem_splitOnNl_joinNl_of_nlFree hassem hfree
    have hlne : l ≠ [] := fun hn => hprops.2 (by rw [hn]; rfl)
    have h2 : l ∈ pySplitlines (joinNl (skAssembly (pySplitlines src)
      sigbuf)) := mem_pySplitlines_of_mem_splitOnNl' h1 hlne
    exact pyStrip_mem_output_of_line h2 hprops.2
  · intro sigbuf2 hfs2
    rw [hfs] at hfs2
    have hsb : sigbuf2 = sigbuf := (Option.some_inj.mp hfs2).symm
    subst hsb
    refine ⟨?_, ?_⟩
    · intro l hl hne
      obtain ⟨P, hPl⟩ := skAssembly_lines_decomp (pySplitlines src) sigbuf2
      have hmem : l ∈ pySplitlines
          (joinNl (skAssembly (pySplitlines src) sigbuf2)) := by
        rw [hPl]
        exact List.mem_append.mpr (Or.inr (List.mem_append.mpr (Or.inl hl)))
      exact pyStrip_mem_output_of_line hmem hne
    · intro hKs
      exact ensure_top_sig_suffix
        (skAssembly_lines_decomp (pySplitlines src) sigbuf2) hKs

/-- Witness for C8 on an input with a leading open line: the open line
survives into the skeleton's stripped lines, and the skeleton ends with
the declaration's signature text followed by the placeholder body. -/
theorem claim_C8_witness :
    (pyStrip (("open Nat" : String).data) ∈
      (pySplitlines
        (("import Mathlib\nopen Nat\n\ntheorem a : True := by\n  sorry\n" :
          String).data)).map pyStrip) ∧
    (∃ a, ("import Mathlib\nopen Nat\n\ntheorem a : True := by\n  sorry\n" :
        String).data =
      a ++ '\n' :: (sigLeftOf [("theorem a : True := trivial" :
        String).data] ++ skTail)) :=
  ⟨((claim_C8_fallback_contract
      ("open Nat\ntheorem a : True := trivial" : String).data).2
    (("import Mathlib\nopen Nat\n\ntheorem a : True := by\n  sorry\n" :
      String).data)
    (by decide)).1 (("open Nat" : String).data) (Or.inr (by decide)),
  (((claim_C8_fallback_contract
      ("open Nat\ntheorem a : True := trivial" : String).data).2
    (("import Mathlib\nopen Nat\n\ntheorem a : True := by\n  sorry\n" :
      String).data)
    (by decide)).2.2.2 [("theorem a : True := trivial" : String).data]
    (by decide)).2 (by decide)⟩

end BrickMove
